import Mathlib

/-! Verification of `generate/generate.go`.

A shallow embedding of the text-emission helper of `generate.go` and of its
identifier normaliser `CamelCase`, followed by theorems about them.

Conventions of the embedding

* A Go `string` or `[]byte` is a list of bytes; a byte is a natural number
  below 256 (`Bytes`).  `ascii` turns an ASCII literal into its bytes.
* A method with receiver `g *Generate` is a function taking the state `g` and
  returning the new state.
* A call that does not come back (`os.Exit` in `Fail`, a run-time panic) is an
  `Except.error` carrying a `Stop`.  Loops whose termination is not evident
  from their shape carry a step budget; exhausting it is `Stop.outOfFuel`.
-/

namespace GoGenerate

/-! ## Bytes and strings -/

/-- A Go `string` or `[]byte`: a sequence of bytes, each a number below 256. -/
abbrev Bytes := List Nat

/-- The bytes of an ASCII literal. -/
def ascii (s : String) : Bytes := s.toList.map Char.toNat

/-- Ways in which a call does not return to its caller. -/
inductive Stop where
  /-- `Fail`/`Error`: the message was logged and `os.Exit(1)` called. -/
  | exit (msg : Bytes)
  /-- Run-time panic: `*s` on a nil pointer. -/
  | nilDeref
  /-- Run-time panic: `s[i]` with `i` outside `0 .. len(s)-1`. -/
  | indexOutOfRange
  /-- `log.Panicln` after `os.Create` failed. -/
  | createFailed
  /-- The step budget of a loop of the embedding was used up. -/
  | outOfFuel
  deriving DecidableEq, Repr

/-- Go's `s[i]`: the byte at index `i`, a panic outside the string. -/
def index (s : Bytes) (i : Nat) : Except Stop Nat :=
  match s.get? i with
  | some c => .ok c
  | none => .error .indexOutOfRange

/-! ## `CamelCase` -/

/-- `isASCIILower`: is `c` an ASCII lower-case letter, `'a' <= c && c <= 'z'`. -/
def isASCIILower (c : Nat) : Bool := decide (97 ≤ c) && decide (c ≤ 122)

/-- `isASCIIDigit`: is `c` an ASCII digit, `'0' <= c && c <= '9'`. -/
def isASCIIDigit (c : Nat) : Bool := decide (48 ≤ c) && decide (c ≤ 57)

/-- The inner loop of `CamelCase`,
`for i+1 < len(s) && isASCIILower(s[i+1]) { i++; t = append(t, s[i]) }`,
returning the final `i` and `t`. -/
def lowerRun : Nat → Bytes → Nat → Bytes → Except Stop (Nat × Bytes)
  | 0, _, _, _ => .error .outOfFuel
  | fuel + 1, s, i, t =>
    if i + 1 < s.length then do
      let d ← index s (i + 1)
      if isASCIILower d then do
        let i := i + 1
        let c ← index s i
        lowerRun fuel s i (t ++ [c])
      else pure (i, t)
    else pure (i, t)

/-- The outer loop of `CamelCase`, `for ; i < len(s); i++ { ... }`, from index
`i` with accumulator `t`; `95` is `'_'` and `32` is `' '`. -/
def scan : Nat → Bytes → Nat → Bytes → Except Stop Bytes
  | 0, _, _, _ => .error .outOfFuel
  | fuel + 1, s, i, t =>
    if i < s.length then do
      let c ← index s i
      let skip ←
        (if c = 95 ∧ i + 1 < s.length then do
          let d ← index s (i + 1)
          pure (isASCIILower d)
        else pure false)
      if skip then
        scan fuel s (i + 1) t
      else if isASCIIDigit c then
        scan fuel s (i + 1) (t ++ [c])
      else do
        let c := if isASCIILower c then c ^^^ 32 else c
        let t := t ++ [c]
        let (i, t) ← lowerRun (s.length + 1) s i t
        scan fuel s (i + 1) t
    else pure t

/-- `CamelCase` with an explicit step budget for its outer loop; `88` is
`'X'`. -/
def CamelCaseN (fuel : Nat) (s : Bytes) : Except Stop Bytes :=
  if s = [] then pure []
  else do
    let t : Bytes := []
    let c ← index s 0
    if c = 95 then scan fuel s 1 (t ++ [88])
    else scan fuel s 0 t

/-- `CamelCase(s)`; the outer loop runs at most `len(s) + 1` tests. -/
def CamelCase (s : Bytes) : Except Stop Bytes := CamelCaseN (s.length + 1) s

/-! ## Values and their formatting -/

/-- The dynamic types a value handed to `P` or `Symbol` can have.  A pointer is
`none` when nil.  Integers are carried as mathematical integers (no arithmetic
is done on them); a `float64` is carried as its 64-bit pattern.  `other` is a
value of any type the type switches do not list, with its `%T` rendering. -/
inductive Value where
  | string (s : Bytes)
  | stringPtr (p : Option Bytes)
  | bool (b : Bool)
  | boolPtr (p : Option Bool)
  | int (n : Int)
  | int32 (n : Int)
  | int32Ptr (p : Option Int)
  | int64 (n : Int)
  | int64Ptr (p : Option Int)
  | float64 (x : Nat)
  | float64Ptr (p : Option Nat)
  | bytes (b : Bytes)
  | other (typeName : Bytes)

/-- Go's `*p`: the pointee, a panic on a nil pointer. -/
def deref {α : Type} (p : Option α) : Except Stop α :=
  match p with
  | some v => .ok v
  | none => .error .nilDeref

/-- What `fmt` prints for the verb `%t`. -/
def fmtT (b : Bool) : Bytes := if b then ascii "true" else ascii "false"

/-- What `fmt` prints for the verb `%d`: decimal digits, `-` before a negative
number. -/
def fmtD (n : Int) : Bytes := ascii (toString n)

/-- What `fmt` prints for the verb `%v` applied to a `[]byte`: the elements in
decimal, separated by one space, between square brackets. -/
def fmtV (b : Bytes) : Bytes :=
  ascii "[" ++ (ascii " ").intercalate (b.map (fun x => fmtD (Int.ofNat x))) ++ ascii "]"

/-- Go's `string(b)` for a byte `b`: the UTF-8 encoding of the code point
`b`, one byte below 128 and two bytes from 128 on. -/
def byteToString (b : Nat) : Bytes :=
  if b < 128 then [b] else [192 + b / 64, 128 + b % 64]

/-- Go's `strings.Join`. -/
def stringsJoin (elems : List Bytes) (sep : Bytes) : Bytes := sep.intercalate elems

/-- Go's `strings.HasSuffix`. -/
def stringsHasSuffix (s suffix : Bytes) : Bool := suffix.isSuffixOf s

/-! ## The generator state -/

/-- The struct `Generate`; the embedded `*bytes.Buffer` is the text written so
far. -/
structure Generate where
  fileName : Bytes
  dirName : Bytes
  Buffer : Bytes
  indent : Bytes
  deriving DecidableEq, Repr

/-- `New(dirName, fileName)`: an empty buffer and the zero value of `indent`. -/
def New (dirName fileName : Bytes) : Generate :=
  { Buffer := [], dirName := dirName, fileName := fileName, indent := [] }

namespace Generate

/-- `bytes.Buffer.WriteString`. -/
def WriteString (g : Generate) (s : Bytes) : Generate := { g with Buffer := g.Buffer ++ s }

/-- `bytes.Buffer.WriteByte`. -/
def WriteByte (g : Generate) (c : Nat) : Generate := { g with Buffer := g.Buffer ++ [c] }

/-- `bytes.Buffer.Write`, through which `fmt.Fprintf(g, ...)` writes. -/
def Write (g : Generate) (p : Bytes) : Generate := { g with Buffer := g.Buffer ++ p }

/-- `bytes.Buffer.Bytes`. -/
def Bytes (g : Generate) : GoGenerate.Bytes := g.Buffer

/-- `Fail(msgs...)`: joins the messages, logs them and exits the program. -/
def Fail {α : Type} (msgs : List GoGenerate.Bytes) : Except Stop α :=
  let s := stringsJoin msgs (ascii " ")
  .error (.exit s)

/-- `Error(err, msgs...)`: as `Fail`, with the error text after a colon. -/
def Error {α : Type} (err : GoGenerate.Bytes) (msgs : List GoGenerate.Bytes) : Except Stop α :=
  let s := stringsJoin msgs (ascii " ") ++ ascii ":" ++ err
  .error (.exit s)

/-- One turn of the loop of `P`: the type switch on `v`.  `fmtG` is what `fmt`
prints for the verb `%g`. -/
def printValue (fmtG : Nat → GoGenerate.Bytes) (g : Generate) (v : Value) :
    Except Stop Generate :=
  match v with
  | .string s => pure (g.WriteString s)
  | .stringPtr s => do pure (g.WriteString (← deref s))
  | .bool s => pure (g.Write (fmtT s))
  | .boolPtr s => do pure (g.Write (fmtT (← deref s)))
  | .int s => pure (g.Write (fmtD s))
  | .int32 s => pure (g.Write (fmtD s))
  | .int32Ptr s => do pure (g.Write (fmtD (← deref s)))
  | .int64 s => pure (g.Write (fmtD s))
  | .int64Ptr s => do pure (g.Write (fmtD (← deref s)))
  | .float64 s => pure (g.Write (fmtG s))
  | .float64Ptr s => do pure (g.Write (fmtG (← deref s)))
  | .bytes s => pure (g.Write (fmtV s))
  | .other typeName => Fail [ascii "unknown type in printer: " ++ typeName]

/-- `P(str...)`: the indentation, each argument, a newline; `10` is `'\n'`. -/
def P (fmtG : Nat → GoGenerate.Bytes) (str : List Value) (g : Generate) :
    Except Stop Generate := do
  let g := g.WriteString g.indent
  let g ← str.foldlM (printValue fmtG) g
  let g := g.WriteByte 10
  pure g

/-- `In()`: `g.indent += "\t"`; `9` is the tab. -/
def In (g : Generate) : Generate := { g with indent := g.indent ++ [9] }

/-- One turn of the loop of `Symbol`: the type switch on `v`, in which the two
boolean cases are commented out. -/
def symbolValue (fmtG : Nat → GoGenerate.Bytes) (rst : GoGenerate.Bytes) (v : Value) :
    Except Stop GoGenerate.Bytes :=
  match v with
  | .string s => pure (rst ++ s)
  | .stringPtr s => do pure (rst ++ (← deref s))
  | .int s => pure (rst ++ fmtD s)
  | .int32 s => pure (rst ++ fmtD s)
  | .int32Ptr s => do pure (rst ++ fmtD (← deref s))
  | .int64 s => pure (rst ++ fmtD s)
  | .int64Ptr s => do pure (rst ++ fmtD (← deref s))
  | .float64 s => pure (rst ++ fmtG s)
  | .float64Ptr s => do pure (rst ++ fmtG (← deref s))
  | .bytes s => pure (rst ++ fmtV s)
  | .bool _ => Fail [ascii "Symbol unknown type in printer: " ++ ascii "bool"]
  | .boolPtr _ => Fail [ascii "Symbol unknown type in printer: " ++ ascii "*bool"]
  | .other typeName => Fail [ascii "Symbol unknown type in printer: " ++ typeName]

/-- `Symbol(symbol, str...)`: the result string and the (untouched) state;
`40` is `'('` and `34` is `'"'`. -/
def Symbol (fmtG : Nat → GoGenerate.Bytes) (symbol : Nat) (str : List Value) (g : Generate) :
    Except Stop (GoGenerate.Bytes × Generate) := do
  let rst := byteToString symbol
  let rst ← str.foldlM (symbolValue fmtG) rst
  if symbol = 40 then
    pure (rst ++ ascii ")", g)
  else if symbol = 34 then
    pure (rst ++ [34], g)
  else
    Fail [ascii "unknown symbol", byteToString symbol]

/-- `Out()`: drops the first byte of a non-empty `indent`. -/
def Out (g : Generate) : Generate :=
  if g.indent.length > 0 then { g with indent := g.indent.drop 1 } else g

/-- `InFunc(str, fn)`: `In`, the body, `Out`, then `P(str)`.  The closure `fn`
is a state transformer that may itself not return. -/
def InFunc (fmtG : Nat → GoGenerate.Bytes) (str : GoGenerate.Bytes)
    (fn : Generate → Except Stop Generate) (g : Generate) : Except Stop Generate := do
  let g := g.In
  let g ← fn g
  let g := g.Out
  P fmtG [.string str] g

/-- `gofmt(outFilePath, fileName, srcCode)`.  `parseFile` stands for
`parser.ParseFile` and `formatNode` for `format.Node`, each returning its
result or an error; the two file names only feed the log. -/
def gofmt {File Err : Type} (parseFile : GoGenerate.Bytes → Except Err File)
    (formatNode : File → Except Err GoGenerate.Bytes)
    (_outFilePath _fileName srcCode : GoGenerate.Bytes) : GoGenerate.Bytes :=
  match parseFile srcCode with
  | .error _ => srcCode
  | .ok file =>
    match formatNode file with
    | .error _ => srcCode
    | .ok buf => buf

/-- `WriteFile(outFilePath)`: the bytes handed to `f.Write`.  `createOk` tells
whether `os.Create` succeeded; the results of `os.MkdirAll`, `f.Write` and
`f.Close` are discarded by the source. -/
def WriteFile {File Err : Type} (parseFile : GoGenerate.Bytes → Except Err File)
    (formatNode : File → Except Err GoGenerate.Bytes) (createOk : Bool)
    (outFilePath : GoGenerate.Bytes) (g : Generate) : Except Stop GoGenerate.Bytes :=
  if createOk = false then .error .createFailed
  else if stringsHasSuffix g.fileName (ascii ".go") then
    pure (gofmt parseFile formatNode outFilePath g.fileName g.Bytes)
  else
    pure g.Bytes

end Generate

/-! ## Sequences of calls -/

/-- A call made on a generator by its driver; the body of an `InFunc` is again
a sequence of calls. -/
inductive Call where
  | P (str : List Value)
  | In
  | Out
  | InFunc (str : Bytes) (fn : List Call)

mutual
/-- Runs one call. -/
def Call.exec (fmtG : Nat → Bytes) : Call → Generate → Except Stop Generate
  | .P str, g => g.P fmtG str
  | .In, g => pure g.In
  | .Out, g => pure g.Out
  | .InFunc str fn, g => g.InFunc fmtG str (execAll fmtG fn)
/-- Runs a sequence of calls, stopping at the first that does not return. -/
def execAll (fmtG : Nat → Bytes) : List Call → Generate → Except Stop Generate
  | [], g => pure g
  | c :: cs, g => do
    let g ← c.exec fmtG g
    execAll fmtG cs g
end

/-- A state is reachable when a sequence of `P`, `In`, `Out` and `InFunc` calls
leads to it from a state made by `New`. -/
def Reachable (fmtG : Nat → Bytes) (g : Generate) : Prop :=
  ∃ dirName fileName calls, execAll fmtG calls (New dirName fileName) = .ok g

/-! ## Reference definitions taken from the specification -/

/-- The kinds of the scalar-formatting table of the specification (text,
boolean, integer, float, byte sequence, and a non-nil reference to text, a
boolean, a 32- or 64-bit integer or a float), as far as `P` lists them. -/
def Value.supported : Value → Bool
  | .stringPtr p => p.isSome
  | .boolPtr p => p.isSome
  | .int32Ptr p => p.isSome
  | .int64Ptr p => p.isSome
  | .float64Ptr p => p.isSome
  | .other _ => false
  | _ => true

/-- The scalar-formatting table of the specification: text verbatim, booleans
as `true`/`false`, integers in decimal, a float by `fmtG`, a byte sequence by
its structural rendering; a reference is formatted as the value it points to.
Outside the table (a nil reference, another kind) the text is empty. -/
def scalarText (fmtG : Nat → Bytes) : Value → Bytes
  | .string s => s
  | .stringPtr p => p.getD []
  | .bool b => if b then ascii "true" else ascii "false"
  | .boolPtr p => if p.getD false then ascii "true" else ascii "false"
  | .int n => ascii (toString n)
  | .int32 n => ascii (toString n)
  | .int32Ptr p => ascii (toString (p.getD 0))
  | .int64 n => ascii (toString n)
  | .int64Ptr p => ascii (toString (p.getD 0))
  | .float64 x => fmtG x
  | .float64Ptr p => fmtG (p.getD 0)
  | .bytes b => fmtV b
  | .other _ => []

/-- Is the value a boolean or a reference to one. -/
def Value.isBoolKind : Value → Bool
  | .bool _ => true
  | .boolPtr _ => true
  | _ => false

mutual
/-- The indentation depth of the specification after one call: `In` adds one,
`Out` takes one away with a floor at zero, `P` leaves it, and `InFunc` is an
indent, its body and a dedent. -/
def Call.depthAfter : Call → Nat → Nat
  | .P _, d => d
  | .In, d => d + 1
  | .Out, d => d - 1
  | .InFunc _ fn, d => depthAfterAll fn (d + 1) - 1
/-- The indentation depth of the specification after a sequence of calls. -/
def depthAfterAll : List Call → Nat → Nat
  | [], d => d
  | c :: cs, d => depthAfterAll cs (c.depthAfter d)
end

/-- Does the list start with a lower-case letter. -/
def nextIsLower : Bytes → Bool
  | [] => false
  | d :: _ => isASCIILower d

/-- What the outer loop of `CamelCase` adds to its accumulator for the rest
`l` of the input, by recursion on `l`; `inWord` tells that the byte before `l`
was written as the start or the continuation of a word, so that a lower-case
letter heading `l` continues it.  Used to reason about `scan`. -/
def camelTail : Bool → Bytes → Bytes
  | _, [] => []
  | inWord, c :: r =>
    if inWord && isASCIILower c then c :: camelTail true r
    else if c = 95 ∧ nextIsLower r = true then camelTail false r
    else if isASCIIDigit c then c :: camelTail false r
    else (if isASCIILower c then c ^^^ 32 else c) :: camelTail true r

/-- The result of `CamelCase` by recursion on the input: the marker `X` for
an underscore in front, then `camelTail`. -/
def camelRef : Bytes → Bytes
  | [] => []
  | c :: r => if c = 95 then 88 :: camelTail false r else camelTail false (c :: r)

/-- The positions the specification says keep their underscore: the indices
`i >= 1` of `s` that hold an underscore which is at the end of `s` or is
followed by a byte that is not a lower-case letter. -/
def retainedUnderscores (s : Bytes) : List Nat :=
  (List.range s.length).filter fun i =>
    decide (1 ≤ i) && (s.get? i == some 95) &&
      (match s.get? (i + 1) with
        | none => true
        | some d => !isASCIILower d)

/-- The number of underscores of `l` that are at its end or in front of a byte
that is not a lower-case letter, by recursion on `l`.  Used to count the
positions of `retainedUnderscores`. -/
def countKept : Bytes → Nat
  | [] => 0
  | c :: r => (if c = 95 ∧ nextIsLower r = false then 1 else 0) + countKept r

/-- The upper-case form of a lower-case ASCII letter: the byte 32 below it. -/
def toUpper (c : Nat) : Nat := c - 32

/-- Does an optional byte exist and satisfy `p`. -/
def holds (p : Nat → Bool) : Option Nat → Bool
  | none => false
  | some c => p c

/-- The byte before index `i` of `s`, none at index 0. -/
def prevAt (s : Bytes) (i : Nat) : Option Nat := if i = 0 then none else s.get? (i - 1)

/-- The position-wise description of `CamelCase` for one position holding the
byte `c`, with `prev` the byte before it (none at index 0) and `next` the byte
after it (none at the end): `X` for an underscore at index 0; nothing for a
later underscore followed by a lower-case letter; the upper-case form of a
lower-case letter that is at index 0 or comes after a digit or an underscore;
the byte itself otherwise. -/
def pieceOf (prev : Option Nat) (c : Nat) (next : Option Nat) : Bytes :=
  if prev = none ∧ c = 95 then [88]
  else if prev ≠ none ∧ c = 95 ∧ holds isASCIILower next = true then []
  else if isASCIILower c = true
      ∧ (prev = none ∨ holds isASCIIDigit prev = true ∨ prev = some 95) then [toUpper c]
  else [c]

/-- The piece the position-wise description gives for index `i` of `s`. -/
def camelPiece (s : Bytes) (i : Nat) : Bytes :=
  match s.get? i with
  | none => []
  | some c => pieceOf (prevAt s i) c (s.get? (i + 1))

/-- The position-wise description of `CamelCase`: the pieces of the indices
`0 .. len(s)-1` one after the other. -/
def camelSpec (s : Bytes) : Bytes := (List.range s.length).flatMap (camelPiece s)

/-- The pieces of `pieceOf` by recursion on the rest `l` of the input, `prev`
being the byte before `l`.  Used to compare `camelSpec` with `camelTail`. -/
def piecesFrom : Option Nat → Bytes → Bytes
  | _, [] => []
  | prev, c :: r => pieceOf prev c r.head? ++ piecesFrom (some c) r

/-- What becomes of the byte `c` that is not dropped as a word separator, with
`prev` the byte before it (none at index 0): an underscore gives the marker
`X` at index 0 and nothing later; a lower-case letter gives its upper-case
form when it is at index 0 or comes after an underscore, and also after a
digit when `digitStartsWord` is set; any other byte, and a lower-case letter
elsewhere, is kept. -/
def casedPiece (digitStartsWord : Bool) (prev : Option Nat) (c : Nat) : Bytes :=
  if c = 95 then (if prev = none then [88] else [])
  else if isASCIILower c = true
      ∧ (prev = none ∨ prev = some 95
        ∨ (digitStartsWord = true ∧ holds isASCIIDigit prev = true)) then [toUpper c]
  else [c]

/-- The letters and digits of the result as the specification words them: a
lower-case letter is capitalised only at index 0 or right after an
underscore, and a digit does not capitalise the letter after it. -/
def lettersAsClaimed (s : Bytes) : Bytes :=
  (List.range s.length).flatMap fun i =>
    match s.get? i with
    | none => []
    | some c => casedPiece false (prevAt s i) c

/-- The letters and digits of the result with a digit starting a word too: a
lower-case letter is capitalised at index 0, right after an underscore and
right after a digit. -/
def lettersCased (s : Bytes) : Bytes :=
  (List.range s.length).flatMap fun i =>
    match s.get? i with
    | none => []
    | some c => casedPiece true (prevAt s i) c

/-- Go's `&v` on the dynamic types of `Value`: a pointer to the value.  Only
pointers to `string`, `bool`, `int32`, `int64` and `float64` are listed by the
type switches; a pointer of any other type is an `other` value, with the `%T`
rendering of its type. -/
def Value.ref : Value → Value
  | .string s => .stringPtr (some s)
  | .bool b => .boolPtr (some b)
  | .int32 n => .int32Ptr (some n)
  | .int64 n => .int64Ptr (some n)
  | .float64 x => .float64Ptr (some x)
  | .int _ => .other (ascii "*int")
  | .bytes _ => .other (ascii "*[]uint8")
  | .stringPtr _ => .other (ascii "**string")
  | .boolPtr _ => .other (ascii "**bool")
  | .int32Ptr _ => .other (ascii "**int32")
  | .int64Ptr _ => .other (ascii "**int64")
  | .float64Ptr _ => .other (ascii "**float64")
  | .other typeName => .other (ascii "*" ++ typeName)

/-- The kinds the specification says may also come by reference: text,
boolean, 32-bit integer, 64-bit integer, float and byte sequence. -/
def Value.isScalar : Value → Bool
  | .string _ => true
  | .bool _ => true
  | .int32 _ => true
  | .int64 _ => true
  | .float64 _ => true
  | .bytes _ => true
  | _ => false

/-- Is the value a nil pointer of one of the pointer types the type switches
list (dereferencing it panics). -/
def Value.isNilRef : Value → Bool
  | .stringPtr none => true
  | .boolPtr none => true
  | .int32Ptr none => true
  | .int64Ptr none => true
  | .float64Ptr none => true
  | _ => false

/-- The values `Symbol` accepts: the supported kinds other than the boolean
ones. -/
def Value.symbolAccepts (v : Value) : Bool := v.supported && !v.isBoolKind

/-! ## `P` and `Symbol` -/

theorem printValue_supported (fmtG : Nat → Bytes) (g : Generate) (v : Value)
    (h : v.supported = true) :
    Generate.printValue fmtG g v = .ok { g with Buffer := g.Buffer ++ scalarText fmtG v } := by
  cases v with
  | stringPtr p | boolPtr p | int32Ptr p | int64Ptr p | float64Ptr p =>
    cases p with
    | none => simp [Value.supported] at h
    | some x =>
      simp [Generate.printValue, deref, bind, Except.bind, pure, Except.pure,
        Generate.WriteString, Generate.Write, scalarText, fmtT, fmtD]
  | other n => simp [Value.supported] at h
  | _ =>
    simp [Generate.printValue, pure, Except.pure,
      Generate.WriteString, Generate.Write, scalarText, fmtT, fmtD]

theorem printValue_unsupported (fmtG : Nat → Bytes) (g : Generate) (v : Value)
    (h : v.supported = false) :
    ∃ e, Generate.printValue fmtG g v = .error e := by
  cases v with
  | stringPtr p | boolPtr p | int32Ptr p | int64Ptr p | float64Ptr p =>
    cases p with
    | none => exact ⟨_, rfl⟩
    | some x => simp [Value.supported] at h
  | other n => exact ⟨_, rfl⟩
  | _ => simp [Value.supported] at h

theorem symbolValue_accepts (fmtG : Nat → Bytes) (rst : Bytes) (v : Value)
    (h : v.symbolAccepts = true) :
    Generate.symbolValue fmtG rst v = .ok (rst ++ scalarText fmtG v) := by
  cases v with
  | stringPtr p | int32Ptr p | int64Ptr p | float64Ptr p =>
    cases p with
    | none => simp [Value.symbolAccepts, Value.supported] at h
    | some x =>
      simp [Generate.symbolValue, deref, bind, Except.bind, pure, Except.pure, scalarText, fmtD]
  | other n => simp [Value.symbolAccepts, Value.supported] at h
  | bool b => simp [Value.symbolAccepts, Value.isBoolKind] at h
  | boolPtr p => simp [Value.symbolAccepts, Value.isBoolKind] at h
  | _ => simp [Generate.symbolValue, pure, Except.pure, scalarText, fmtD]

theorem symbolValue_rejects (fmtG : Nat → Bytes) (rst : Bytes) (v : Value)
    (h : v.symbolAccepts = false) :
    ∃ e, Generate.symbolValue fmtG rst v = .error e := by
  cases v with
  | stringPtr p | int32Ptr p | int64Ptr p | float64Ptr p =>
    cases p with
    | none => exact ⟨_, rfl⟩
    | some x => simp [Value.symbolAccepts, Value.supported, Value.isBoolKind] at h
  | other n => exact ⟨_, rfl⟩
  | bool b => exact ⟨_, rfl⟩
  | boolPtr p => exact ⟨_, rfl⟩
  | _ => simp [Value.symbolAccepts, Value.supported, Value.isBoolKind] at h

theorem foldlM_printValue (fmtG : Nat → Bytes) (vs : List Value) (g : Generate)
    (h : ∀ v ∈ vs, v.supported = true) :
    vs.foldlM (Generate.printValue fmtG) g
      = .ok { g with Buffer := g.Buffer ++ (vs.map (scalarText fmtG)).flatten } := by
  induction vs generalizing g with
  | nil => simp [pure, Except.pure]
  | cons v vs ih =>
    have hv := h v (List.mem_cons_self _ _)
    have hvs : ∀ w ∈ vs, w.supported = true := fun w hw => h w (List.mem_cons_of_mem _ hw)
    rw [List.foldlM_cons, printValue_supported fmtG g v hv]
    simp [bind, Except.bind, ih _ hvs, List.append_assoc]

theorem foldlM_printValue_error (fmtG : Nat → Bytes) (vs : List Value) (g : Generate)
    (h : ∃ v ∈ vs, v.supported = false) :
    ∃ e, vs.foldlM (Generate.printValue fmtG) g = .error e := by
  induction vs generalizing g with
  | nil => simp at h
  | cons v vs ih =>
    rw [List.foldlM_cons]
    by_cases hv : v.supported = true
    · have hvs : ∃ w ∈ vs, w.supported = false := by
        obtain ⟨w, hw, hws⟩ := h
        rcases List.mem_cons.mp hw with rfl | hw
        · simp [hv] at hws
        · exact ⟨w, hw, hws⟩
      rw [printValue_supported fmtG g v hv]
      simpa [bind, Except.bind] using ih _ hvs
    · obtain ⟨e, he⟩ := printValue_unsupported fmtG g v (by simpa using hv)
      exact ⟨e, by simp [he, bind, Except.bind]⟩

theorem foldlM_symbolValue (fmtG : Nat → Bytes) (vs : List Value) (rst : Bytes)
    (h : ∀ v ∈ vs, v.symbolAccepts = true) :
    vs.foldlM (Generate.symbolValue fmtG) rst
      = .ok (rst ++ (vs.map (scalarText fmtG)).flatten) := by
  induction vs generalizing rst with
  | nil => simp [pure, Except.pure]
  | cons v vs ih =>
    have hv := h v (List.mem_cons_self _ _)
    have hvs : ∀ w ∈ vs, w.symbolAccepts = true := fun w hw => h w (List.mem_cons_of_mem _ hw)
    rw [List.foldlM_cons, symbolValue_accepts fmtG rst v hv]
    simp [bind, Except.bind, ih _ hvs, List.append_assoc]

theorem foldlM_symbolValue_error (fmtG : Nat → Bytes) (vs : List Value) (rst : Bytes)
    (h : ∃ v ∈ vs, v.symbolAccepts = false) :
    ∃ e, vs.foldlM (Generate.symbolValue fmtG) rst = .error e := by
  induction vs generalizing rst with
  | nil => simp at h
  | cons v vs ih =>
    rw [List.foldlM_cons]
    by_cases hv : v.symbolAccepts = true
    · have hvs : ∃ w ∈ vs, w.symbolAccepts = false := by
        obtain ⟨w, hw, hws⟩ := h
        rcases List.mem_cons.mp hw with rfl | hw
        · simp [hv] at hws
        · exact ⟨w, hw, hws⟩
      rw [symbolValue_accepts fmtG rst v hv]
      simpa [bind, Except.bind] using ih _ hvs
    · obtain ⟨e, he⟩ := symbolValue_rejects fmtG rst v (by simpa using hv)
      exact ⟨e, by simp [he, bind, Except.bind]⟩

/-- What `P` does on supported values, as an equation. -/
theorem P_supported (fmtG : Nat → Bytes) (g : Generate) (vs : List Value)
    (h : ∀ v ∈ vs, v.supported = true) :
    g.P fmtG vs
      = .ok { g with
          Buffer := g.Buffer ++ g.indent ++ (vs.map (scalarText fmtG)).flatten ++ [10] } := by
  simp [Generate.P, foldlM_printValue fmtG vs _ h, bind, Except.bind, pure, Except.pure,
    Generate.WriteString, Generate.WriteByte]

/-- `P` does not return when a value is outside the supported kinds. -/
theorem P_unsupported (fmtG : Nat → Bytes) (g : Generate) (vs : List Value)
    (h : ∃ v ∈ vs, v.supported = false) :
    ∃ e, g.P fmtG vs = .error e := by
  obtain ⟨e, he⟩ := foldlM_printValue_error fmtG vs (g.WriteString g.indent) h
  exact ⟨e, by simp [Generate.P, he, bind, Except.bind]⟩

/-- What `Symbol` returns for `(` on accepted values, as an equation. -/
theorem Symbol_paren_accepts (fmtG : Nat → Bytes) (g : Generate) (vs : List Value)
    (h : ∀ v ∈ vs, v.symbolAccepts = true) :
    g.Symbol fmtG 40 vs = .ok ([40] ++ (vs.map (scalarText fmtG)).flatten ++ [41], g) := by
  simp [Generate.Symbol, byteToString, foldlM_symbolValue fmtG vs _ h, bind, Except.bind,
    pure, Except.pure, ascii]

/-- What `Symbol` returns for `"` on accepted values, as an equation. -/
theorem Symbol_quote_accepts (fmtG : Nat → Bytes) (g : Generate) (vs : List Value)
    (h : ∀ v ∈ vs, v.symbolAccepts = true) :
    g.Symbol fmtG 34 vs = .ok ([34] ++ (vs.map (scalarText fmtG)).flatten ++ [34], g) := by
  simp [Generate.Symbol, byteToString, foldlM_symbolValue fmtG vs _ h, bind, Except.bind,
    pure, Except.pure]

/-- `Symbol` does not return when a value is outside the kinds it accepts. -/
theorem Symbol_rejects (fmtG : Nat → Bytes) (g : Generate) (symbol : Nat) (vs : List Value)
    (h : ∃ v ∈ vs, v.symbolAccepts = false) :
    ∃ e, g.Symbol fmtG symbol vs = .error e := by
  obtain ⟨e, he⟩ := foldlM_symbolValue_error fmtG vs (byteToString symbol) h
  exact ⟨e, by simp [Generate.Symbol, he, bind, Except.bind]⟩

/-- C1: for every state and every list of values of supported kinds, `P`
returns, and the text afterwards is the old text, the indentation, the
formatted values in order and one newline; file name, directory and
indentation are unchanged, and the old text is an initial segment of the new
one. -/
theorem P_appends_line (fmtG : Nat → Bytes) (g : Generate) (vs : List Value)
    (h : ∀ v ∈ vs, v.supported = true) :
    g.P fmtG vs
        = .ok { g with
            Buffer := g.Buffer ++ g.indent ++ (vs.map (scalarText fmtG)).flatten ++ [10] }
      ∧ g.Buffer <+: g.Buffer ++ g.indent ++ (vs.map (scalarText fmtG)).flatten ++ [10] := by
  exact ⟨P_supported fmtG g vs h, by simp [List.append_assoc]⟩

theorem P_appends_line_witness :
    (New [] (ascii "a.go")).In.P (fun _ => ascii "1.5")
        [.string (ascii "x = "), .bool true, .int (-7), .float64 0, .bytes [1, 2]]
      = .ok { (New [] (ascii "a.go")).In with Buffer := ascii "\tx = true-71.5[1 2]\n" } :=
  (P_appends_line (fun _ => ascii "1.5") (New [] (ascii "a.go")).In
    [.string (ascii "x = "), .bool true, .int (-7), .float64 0, .bytes [1, 2]]
    (by decide)).1

/-- C2: for every list of values of kinds `Symbol` accepts, `Symbol('(', vs)`
returns the formatted values, in argument order, between `(` and `)`, and
`Symbol('"', vs)` returns them between two double quotes, the state being
returned as it was; for instance `Symbol('(', "x", 5)` is `(x5)`. -/
theorem Symbol_wraps (fmtG : Nat → Bytes) (g : Generate) (vs : List Value)
    (h : ∀ v ∈ vs, v.symbolAccepts = true) :
    g.Symbol fmtG 40 vs
        = .ok (ascii "(" ++ (vs.map (scalarText fmtG)).flatten ++ ascii ")", g)
      ∧ g.Symbol fmtG 34 vs = .ok ([34] ++ (vs.map (scalarText fmtG)).flatten ++ [34], g)
      ∧ g.Symbol fmtG 40 [.string (ascii "x"), .int 5] = .ok (ascii "(x5)", g) :=
  ⟨Symbol_paren_accepts fmtG g vs h, Symbol_quote_accepts fmtG g vs h, rfl⟩

theorem Symbol_wraps_witness :
    (New (ascii "d") (ascii "f")).In.Symbol (fun _ => ascii "2.5") 34
        [.stringPtr (some (ascii "ab")), .int64 (-3), .float64Ptr (some 1), .bytes [7]]
      = .ok (ascii "\x22ab-32.5[7]\x22", (New (ascii "d") (ascii "f")).In) :=
  (Symbol_wraps (fun _ => ascii "2.5") (New (ascii "d") (ascii "f")).In
    [.stringPtr (some (ascii "ab")), .int64 (-3), .float64Ptr (some 1), .bytes [7]]
    (by decide)).2.1

/-! ## Indentation -/

theorem printValue_indent (fmtG : Nat → Bytes) (g g1 : Generate) (v : Value)
    (h : Generate.printValue fmtG g v = .ok g1) : g1.indent = g.indent := by
  by_cases hv : v.supported = true
  · rw [printValue_supported fmtG g v hv] at h
    cases h
    rfl
  · obtain ⟨e, he⟩ := printValue_unsupported fmtG g v (by simpa using hv)
    rw [he] at h
    cases h

theorem foldlM_printValue_indent (fmtG : Nat → Bytes) (vs : List Value) (g g1 : Generate)
    (h : vs.foldlM (Generate.printValue fmtG) g = .ok g1) : g1.indent = g.indent := by
  induction vs generalizing g with
  | nil =>
    simp [pure, Except.pure] at h
    rw [h]
  | cons v vs ih =>
    rw [List.foldlM_cons] at h
    cases hpv : Generate.printValue fmtG g v with
    | error e => simp [hpv, bind, Except.bind] at h
    | ok g2 =>
      simp only [hpv, bind, Except.bind] at h
      rw [ih g2 h, printValue_indent fmtG g g2 v hpv]

/-- `P` never changes the indentation. -/
theorem P_indent (fmtG : Nat → Bytes) (vs : List Value) (g g1 : Generate)
    (h : g.P fmtG vs = .ok g1) : g1.indent = g.indent := by
  unfold Generate.P at h
  cases hf : vs.foldlM (Generate.printValue fmtG) (g.WriteString g.indent) with
  | error e => simp [hf, bind, Except.bind] at h
  | ok g2 =>
    simp only [hf, bind, Except.bind, pure, Except.pure] at h
    cases h
    simpa [Generate.WriteByte, Generate.WriteString] using
      foldlM_printValue_indent fmtG vs _ g2 hf

theorem In_tabs (g : Generate) (n : Nat) (h : g.indent = List.replicate n 9) :
    g.In.indent = List.replicate (n + 1) 9 := by
  simp [Generate.In, h, List.replicate_succ']

theorem Out_tabs (g : Generate) (n : Nat) (h : g.indent = List.replicate n 9) :
    g.Out.indent = List.replicate (n - 1) 9 := by
  cases n with
  | zero => simp [Generate.Out, h]
  | succ m => simp [Generate.Out, h, List.replicate_succ]

mutual
theorem Call.exec_tabs (fmtG : Nat → Bytes) :
    ∀ (c : Call) (g g1 : Generate) (n : Nat), g.indent = List.replicate n 9 →
      c.exec fmtG g = .ok g1 → g1.indent = List.replicate (c.depthAfter n) 9
  | .P str, g, g1, n, hn, h => by
    simp only [Call.exec] at h
    rw [P_indent fmtG str g g1 h, hn, Call.depthAfter]
  | .In, g, g1, n, hn, h => by
    simp only [Call.exec, pure, Except.pure] at h
    cases h
    exact In_tabs g n hn
  | .Out, g, g1, n, hn, h => by
    simp only [Call.exec, pure, Except.pure] at h
    cases h
    exact Out_tabs g n hn
  | .InFunc str fn, g, g1, n, hn, h => by
    simp only [Call.exec, Generate.InFunc] at h
    cases hb : execAll fmtG fn g.In with
    | error e => simp [hb, bind, Except.bind] at h
    | ok g2 =>
      simp only [hb, bind, Except.bind] at h
      have h2 := execAll_tabs fmtG fn g.In g2 (n + 1) (In_tabs g n hn) hb
      rw [P_indent fmtG _ _ g1 h, Call.depthAfter]
      exact Out_tabs g2 _ h2
theorem execAll_tabs (fmtG : Nat → Bytes) :
    ∀ (cs : List Call) (g g1 : Generate) (n : Nat), g.indent = List.replicate n 9 →
      execAll fmtG cs g = .ok g1 → g1.indent = List.replicate (depthAfterAll cs n) 9
  | [], g, g1, n, hn, h => by
    simp only [execAll, pure, Except.pure] at h
    cases h
    simpa [depthAfterAll] using hn
  | c :: cs, g, g1, n, hn, h => by
    simp only [execAll] at h
    cases hc : c.exec fmtG g with
    | error e => simp [hc, bind, Except.bind] at h
    | ok g2 =>
      simp only [hc, bind, Except.bind] at h
      rw [depthAfterAll]
      exact execAll_tabs fmtG cs g2 g1 _ (Call.exec_tabs fmtG c g g2 n hn hc) h
end

theorem execAll_append (fmtG : Nat → Bytes) (cs ds : List Call) (g : Generate) :
    execAll fmtG (cs ++ ds) g = (execAll fmtG cs g >>= fun g1 => execAll fmtG ds g1) := by
  induction cs generalizing g with
  | nil => simp [execAll, pure, Except.pure, bind, Except.bind]
  | cons c cs ih =>
    simp only [List.cons_append, execAll]
    cases hc : c.exec fmtG g with
    | error e => simp [bind, Except.bind]
    | ok g2 => simp [bind, Except.bind, ih]

/-- The indentation of a reachable state is a run of tabs. -/
theorem Reachable.tabs (fmtG : Nat → Bytes) (g : Generate) (h : Reachable fmtG g) :
    ∃ n, g.indent = List.replicate n 9 := by
  obtain ⟨d, f, calls, hc⟩ := h
  exact ⟨_, execAll_tabs fmtG calls (New d f) g 0 rfl hc⟩

theorem In_Out_noop_aux (g : Generate) (n : Nat) (hn : g.indent = List.replicate n 9) :
    g.In.Out = g := by
  cases g with
  | mk fileName dirName Buffer indent =>
    simp only at hn
    subst hn
    simp [Generate.In, Generate.Out, ← List.replicate_succ']

/-- C5: in every state reachable from `New` by `P`, `In`, `Out` and `InFunc`
calls, `In` followed by `Out` gives back the very same state: indentation,
accumulated text and file names are what they were. -/
theorem In_Out_noop (fmtG : Nat → Bytes) (g : Generate) (h : Reachable fmtG g) :
    g.In.Out = g := by
  obtain ⟨n, hn⟩ := Reachable.tabs fmtG g h
  exact In_Out_noop_aux g n hn

theorem In_Out_noop_witness :
    ({ fileName := ascii "a.go", dirName := [], Buffer := [9, 120, 10], indent := [9] } :
        Generate).In.Out
      = { fileName := ascii "a.go", dirName := [], Buffer := [9, 120, 10], indent := [9] } :=
  In_Out_noop (fun _ => []) _
    ⟨[], ascii "a.go", [.In, .P [.string (ascii "x")]], rfl⟩

/-- C6: `Out` is a total function; on a state of depth zero (empty
indentation) it returns that state unchanged, and so does any number of
further `Out` calls; on a state of depth `n > 0` it leaves depth `n - 1`; it
never touches the accumulated text. -/
theorem Out_floor (g : Generate) (n : Nat) (h : g.indent.length = n) :
    (n = 0 → g.Out = g ∧ ∀ k, Generate.Out^[k] g = g)
      ∧ (0 < n → g.Out.indent.length = n - 1)
      ∧ g.Out.indent = g.indent.drop 1
      ∧ g.Out.Buffer = g.Buffer := by
  subst h
  have h0 : g.indent.length = 0 → g.Out = g := by
    intro h
    simp [Generate.Out, h]
  refine ⟨fun h => ⟨h0 h, fun k => ?_⟩, fun h => ?_, ?_, ?_⟩
  · induction k with
    | zero => rfl
    | succ k ih => rw [Function.iterate_succ_apply, h0 h, ih]
  · simp [Generate.Out, h]
  · by_cases hl : g.indent.length > 0
    · simp [Generate.Out, hl]
    · have : g.indent = [] := List.length_eq_zero.mp (by omega)
      simp [Generate.Out, this]
  · unfold Generate.Out
    split <;> rfl

theorem Out_floor_witness :
    (New [] []).Out = New [] [] ∧ Generate.Out^[5] (New [] []) = New [] []
      ∧ (New [] []).In.In.Out.indent.length = 1 :=
  ⟨((Out_floor (New [] []) 0 rfl).1 rfl).1, ((Out_floor (New [] []) 0 rfl).1 rfl).2 5,
    (Out_floor (New [] []).In.In 2 rfl).2.1 (by decide)⟩

/-- C7: after any sequence of `P`, `In`, `Out` and `InFunc` calls on a state
made by `New`, the indentation consists of exactly `depth` tabs, where `depth`
starts at zero, grows by one with `In` and shrinks by one, not below zero,
with `Out`; so its length is `depth` times the unit width one.  (A state met
inside the body of an `InFunc` is the state after `In` and the calls of the
body made so far, see `InFunc_as_calls`.) -/
theorem indent_is_depth_tabs (fmtG : Nat → Bytes) (dirName fileName : Bytes)
    (calls : List Call) (g : Generate)
    (h : execAll fmtG calls (New dirName fileName) = .ok g) :
    g.indent = List.replicate (depthAfterAll calls 0) 9
      ∧ g.indent.length = depthAfterAll calls 0 * 1 := by
  have ht := execAll_tabs fmtG calls (New dirName fileName) g 0 rfl h
  exact ⟨ht, by simp [ht]⟩

theorem indent_is_depth_tabs_witness :
    ({ fileName := [], dirName := [], Buffer := ascii "\t\tx\n\tend\n", indent := [9] } :
        Generate).indent
      = List.replicate
          (depthAfterAll [.Out, .In, .InFunc (ascii "end") [.In, .P [.string (ascii "x")], .Out]] 0)
          9 :=
  (indent_is_depth_tabs (fun _ => []) [] []
    [.Out, .In, .InFunc (ascii "end") [.In, .P [.string (ascii "x")], .Out]] _ rfl).1

/-- `InFunc` with a body made of calls is the sequence of calls `In`, the
body, `Out`, `P(str)`. -/
theorem InFunc_as_calls (fmtG : Nat → Bytes) (g : Generate) (str : Bytes) (fn : List Call) :
    g.InFunc fmtG str (execAll fmtG fn)
      = execAll fmtG (.In :: (fn ++ [.Out, .P [.string str]])) g := by
  simp only [execAll, Call.exec, execAll_append, Generate.InFunc, pure, Except.pure, bind,
    Except.bind]
  cases execAll fmtG fn g.In with
  | error e => rfl
  | ok g1 =>
    simp only
    cases Generate.P fmtG [Value.string str] g1.Out <;> rfl

/-- C8: for a reachable state `g` and a body that returns with the
indentation depth it was started with, `InFunc(str, body)` is `In`, the body,
`Out`, `P(str)`: the body is run on `g.In`, one tab deeper, and the result is
the state the body left with the indentation of `g` again and the line
`g.indent ++ str ++ "\n"` added to the text; with a body that does nothing
the text grows by exactly that line and nothing else changes. -/
theorem InFunc_balanced (fmtG : Nat → Bytes) (g g1 : Generate) (str : Bytes)
    (fn : List Call) (hg : Reachable fmtG g)
    (hbody : execAll fmtG fn g.In = .ok g1)
    (hdepth : g1.indent.length = g.In.indent.length) :
    g.InFunc fmtG str (execAll fmtG fn)
        = execAll fmtG (.In :: (fn ++ [.Out, .P [.string str]])) g
      ∧ g.In.indent = g.indent ++ [9]
      ∧ g.InFunc fmtG str (execAll fmtG fn)
        = .ok { g1 with indent := g.indent, Buffer := g1.Buffer ++ g.indent ++ str ++ [10] }
      ∧ g.InFunc fmtG str (fun x => .ok x)
        = .ok { g with Buffer := g.Buffer ++ g.indent ++ str ++ [10] } := by
  obtain ⟨n, hn⟩ := Reachable.tabs fmtG g hg
  have h1 := execAll_tabs fmtG fn g.In g1 (n + 1) (In_tabs g n hn) hbody
  have hd : depthAfterAll fn (n + 1) = n + 1 := by
    have := congrArg List.length h1
    rw [hdepth, In_tabs g n hn] at this
    simpa using this.symm
  have hout : g1.Out.indent = g.indent := by
    rw [Out_tabs g1 _ h1, hd, hn]
    rfl
  have hbuf : g1.Out.Buffer = g1.Buffer := by
    unfold Generate.Out
    split <;> rfl
  have hfile : g1.Out.fileName = g1.fileName ∧ g1.Out.dirName = g1.dirName := by
    unfold Generate.Out
    split <;> exact ⟨rfl, rfl⟩
  refine ⟨InFunc_as_calls fmtG g str fn, rfl, ?_, ?_⟩
  · simp only [Generate.InFunc, hbody, bind, Except.bind]
    rw [P_supported fmtG g1.Out [.string str] (by simp [Value.supported])]
    cases hg1o : g1.Out with
    | mk a b c d =>
      rw [hg1o] at hout hbuf hfile
      simp only at hout hbuf hfile
      simp [scalarText, hout, hbuf, hfile.1, hfile.2]
  · have hio : g.In.Out = g := In_Out_noop_aux g n hn
    simp only [Generate.InFunc, bind, Except.bind, hio]
    rw [P_supported fmtG g [.string str] (by simp [Value.supported])]
    simp [scalarText]

theorem InFunc_balanced_witness :
    (New [] []).In.InFunc (fun _ => []) (ascii "end")
        (execAll (fun _ => []) [.P [.string (ascii "x")], .In, .Out])
      = .ok { (New [] []).In with Buffer := ascii "\t\tx\n\tend\n" } :=
  (InFunc_balanced (fun _ => []) (New [] []).In
    { (New [] []).In.In with Buffer := ascii "\t\tx\n" } (ascii "end")
    [.P [.string (ascii "x")], .In, .Out] ⟨[], [], [.In], rfl⟩ rfl rfl).2.2.1

/-! ## Writing the file -/

/-- C9: when the file name ends in `.go` and the parser rejects the
accumulated text, `gofmt` returns (it is a total function) exactly the bytes
it was given, and `WriteFile`, once the file is created, hands exactly the
accumulated bytes to the file and returns; this for every buffer content,
formatter and output path. -/
theorem WriteFile_parse_error {File Err : Type} (parseFile : Bytes → Except Err File)
    (formatNode : File → Except Err Bytes) (createOk : Bool) (outFilePath : Bytes)
    (g : Generate) (e : Err)
    (hgo : stringsHasSuffix g.fileName (ascii ".go") = true)
    (hparse : parseFile g.Buffer = .error e) :
    Generate.gofmt parseFile formatNode outFilePath g.fileName g.Bytes = g.Buffer
      ∧ g.WriteFile parseFile formatNode createOk outFilePath
        = if createOk = true then .ok g.Buffer else .error .createFailed := by
  have hfmt : Generate.gofmt parseFile formatNode outFilePath g.fileName g.Bytes = g.Buffer := by
    simp [Generate.gofmt, Generate.Bytes, hparse]
  refine ⟨hfmt, ?_⟩
  cases createOk with
  | false => simp [Generate.WriteFile]
  | true => simp [Generate.WriteFile, hgo, hfmt, pure, Except.pure]

theorem WriteFile_parse_error_witness :
    ({ New (ascii "pkg") (ascii "x.go") with Buffer := ascii "func (" } : Generate).WriteFile
        (fun _ => (Except.error 1 : Except Nat Unit)) (fun _ => .ok (ascii "package x\n"))
        true (ascii "out")
      = .ok (ascii "func (") :=
  (WriteFile_parse_error (fun _ => (Except.error 1 : Except Nat Unit))
    (fun _ => .ok (ascii "package x\n")) true (ascii "out")
    { New (ascii "pkg") (ascii "x.go") with Buffer := ascii "func (" } 1 rfl rfl).2

/-! ## `Symbol` against `P` -/

theorem supported_of_not_bool (v : Value) (h : v.isBoolKind = false) :
    v.symbolAccepts = v.supported := by
  simp [Value.symbolAccepts, h]

/-- C10, as stated, fails: `P` prints the boolean `true`, and `Symbol` with
`(` on the same value does not return. -/
theorem Symbol_bool_differs_from_P :
    ¬ ((∃ r, (New [] []).Symbol (fun _ => []) 40 [.bool true] = .ok r)
        ↔ (∃ g1, (New [] []).P (fun _ => []) [.bool true] = .ok g1)) := by
  intro h
  obtain ⟨r, hr⟩ := h.mpr ⟨_, rfl⟩
  cases hr

/-- C10, amended: for every list of values none of which is a boolean or a
reference to a boolean, `Symbol('(', vs)` returns exactly when `P(vs)`
returns, and then the text `Symbol` puts between `(` and `)` is the text `P`
writes between the indentation and the newline, namely the formatted values
in order. -/
theorem Symbol_agrees_with_P (fmtG : Nat → Bytes) (g : Generate) (vs : List Value)
    (h : ∀ v ∈ vs, v.isBoolKind = false) :
    ((∃ r, g.Symbol fmtG 40 vs = .ok r) ↔ (∃ g1, g.P fmtG vs = .ok g1))
      ∧ ∀ r g1, g.Symbol fmtG 40 vs = .ok r → g.P fmtG vs = .ok g1 →
          r.1 = [40] ++ (vs.map (scalarText fmtG)).flatten ++ [41]
            ∧ g1.Buffer = g.Buffer ++ g.indent ++ (vs.map (scalarText fmtG)).flatten ++ [10] := by
  by_cases hs : ∀ v ∈ vs, v.supported = true
  · have ha : ∀ v ∈ vs, v.symbolAccepts = true := fun v hv => by
      rw [supported_of_not_bool v (h v hv)]
      exact hs v hv
    rw [Symbol_paren_accepts fmtG g vs ha, P_supported fmtG g vs hs]
    refine ⟨⟨fun _ => ⟨_, rfl⟩, fun _ => ⟨_, rfl⟩⟩, ?_⟩
    intro r g1 hr hg1
    cases hr
    cases hg1
    exact ⟨rfl, rfl⟩
  · have hs1 : ∃ v ∈ vs, v.supported = false := by
      simpa using hs
    have ha : ∃ v ∈ vs, v.symbolAccepts = false := by
      obtain ⟨v, hv, hvs⟩ := hs1
      exact ⟨v, hv, by rw [supported_of_not_bool v (h v hv)]; exact hvs⟩
    obtain ⟨e1, he1⟩ := P_unsupported fmtG g vs hs1
    obtain ⟨e2, he2⟩ := Symbol_rejects fmtG g 40 vs ha
    rw [he1, he2]
    refine ⟨⟨?_, ?_⟩, ?_⟩
    · rintro ⟨r, hr⟩
      cases hr
    · rintro ⟨r, hr⟩
      cases hr
    · intro r g1 hr
      cases hr

theorem Symbol_agrees_with_P_witness :
    (ascii "(n=-4)", (New [] []).In).1 = [40] ++ ascii "n=-4" ++ [41]
      ∧ ({ (New [] []).In with Buffer := ascii "\tn=-4\n" } : Generate).Buffer
        = (New [] []).In.Buffer ++ (New [] []).In.indent ++ ascii "n=-4" ++ [10] :=
  have h := (Symbol_agrees_with_P (fun _ => []) (New [] []).In
    [.string (ascii "n="), .int32Ptr (some (-4))] (by decide)).2
    (ascii "(n=-4)", (New [] []).In) { (New [] []).In with Buffer := ascii "\tn=-4\n" }
    (by rfl) (by rfl)
  ⟨h.1.trans (by rfl), h.2.trans (by rfl)⟩

/-! ## `CamelCase`: the documented examples -/

/-- C3: `CamelCase` on its three documented examples: `_my_field_name_2` gives
`XMyFieldName_2`, `hello_world` gives `HelloWorld` and `ABC_def` gives
`ABCDef`. -/
theorem CamelCase_examples :
    CamelCase (ascii "_my_field_name_2") = .ok (ascii "XMyFieldName_2")
      ∧ CamelCase (ascii "hello_world") = .ok (ascii "HelloWorld")
      ∧ CamelCase (ascii "ABC_def") = .ok (ascii "ABCDef") :=
  ⟨rfl, rfl, rfl⟩

/-! ## `CamelCase`: the loops -/

theorem index_of_drop (s : Bytes) (i c : Nat) (r : Bytes) (h : s.drop i = c :: r) :
    index s i = .ok c := by
  have : s.get? i = some c := by
    rw [List.get?_eq_getElem?, ← List.head?_drop, h]
    rfl
  unfold index
  rw [this]

/-- The inner loop copies the run of lower-case letters that follows index
`i` and stops on its last byte. -/
theorem lowerRun_eq (fuel : Nat) (s : Bytes) (i : Nat) (t : Bytes)
    (hfuel : s.length - i ≤ fuel) (hi : i < s.length) :
    lowerRun fuel s i t
      = .ok (i + ((s.drop (i + 1)).takeWhile isASCIILower).length,
          t ++ (s.drop (i + 1)).takeWhile isASCIILower) := by
  induction fuel generalizing i t with
  | zero => omega
  | succ fuel ih =>
    rw [lowerRun]
    by_cases h1 : i + 1 < s.length
    · have hd : s.drop (i + 1) = s[i + 1] :: s.drop (i + 2) := List.drop_eq_getElem_cons h1
      rw [if_pos h1]
      by_cases hl : isASCIILower s[i + 1] = true
      · simp only [index_of_drop s (i + 1) _ _ hd, bind, Except.bind, hl, if_true]
        rw [ih (i + 1) _ (by omega) h1, hd, List.takeWhile_cons, if_pos hl, List.length_cons]
        simp only [List.append_assoc, List.singleton_append]
        rw [Nat.add_assoc, Nat.add_comm 1]
      · simp only [index_of_drop s (i + 1) _ _ hd, bind, Except.bind, hl, Bool.false_eq_true,
          if_false, pure, Except.pure]
        rw [hd, List.takeWhile_cons, if_neg hl]
        simp
    · rw [if_neg h1, List.drop_of_length_le (by omega)]
      simp [pure, Except.pure]

theorem camelTail_true (l : Bytes) :
    camelTail true l
      = l.takeWhile isASCIILower
          ++ camelTail false (l.drop (l.takeWhile isASCIILower).length) := by
  induction l with
  | nil => simp [camelTail]
  | cons c r ih =>
    by_cases hl : isASCIILower c = true
    · rw [camelTail]
      simp [hl, List.takeWhile_cons, ih]
    · have hl2 : isASCIILower c = false := by simpa using hl
      simp [camelTail, hl2, List.takeWhile_cons]

/-- The part of one turn of the outer loop after the test for a skipped
underscore: a digit is copied, any other byte starts a word. -/
theorem scan_word (fuel : Nat) (s : Bytes) (i : Nat) (t : Bytes)
    (ih : ∀ (j : Nat) (u : Bytes), s.length - j < fuel → j ≤ s.length →
      scan fuel s j u = .ok (u ++ camelTail false (s.drop j)))
    (hfuel : s.length - i < fuel + 1) (h0 : i < s.length) :
    (if isASCIIDigit s[i] = true then scan fuel s (i + 1) (t ++ [s[i]])
      else
        lowerRun (s.length + 1) s i (t ++ [if isASCIILower s[i] = true then s[i] ^^^ 32 else s[i]])
          >>= fun v => scan fuel s (v.1 + 1) v.2)
      = .ok (t ++
          (if isASCIIDigit s[i] = true then s[i] :: camelTail false (s.drop (i + 1))
            else (if isASCIILower s[i] = true then s[i] ^^^ 32 else s[i])
              :: camelTail true (s.drop (i + 1)))) := by
  by_cases hdg : isASCIIDigit s[i] = true
  · simp only [hdg, if_true]
    rw [ih (i + 1) _ (by omega) (by omega)]
    simp
  · simp only [hdg, Bool.false_eq_true, if_false]
    rw [lowerRun_eq (s.length + 1) s i _ (by omega) h0]
    simp only [bind, Except.bind]
    have hk : ((s.drop (i + 1)).takeWhile isASCIILower).length ≤ s.length - (i + 1) := by
      have := (List.takeWhile_prefix (l := s.drop (i + 1)) isASCIILower).length_le
      simpa using this
    rw [ih _ _ (by omega) (by omega), camelTail_true (s.drop (i + 1))]
    simp [List.drop_drop, Nat.add_assoc, Nat.add_comm, Nat.add_left_comm]

/-- The test `c == '_' && i+1 < len(s) && isASCIILower(s[i+1])` of the outer
loop, with its short-circuit evaluation, never indexes outside `s`. -/
theorem skip_test (s : Bytes) (i c : Nat) :
    (if c = 95 ∧ i + 1 < s.length then
        index s (i + 1) >>= fun d => (pure (isASCIILower d) : Except Stop Bool)
      else pure false)
      = .ok (decide (c = 95) && nextIsLower (s.drop (i + 1))) := by
  by_cases h1 : i + 1 < s.length
  · have hd1 : s.drop (i + 1) = s[i + 1] :: s.drop (i + 2) := List.drop_eq_getElem_cons h1
    have hn : nextIsLower (s.drop (i + 1)) = isASCIILower s[i + 1] := by
      rw [hd1]
      rfl
    rw [index_of_drop s (i + 1) _ _ hd1, hn]
    by_cases hc : c = 95
    · simp only [hc, h1, and_self, if_true, bind, Except.bind, pure, Except.pure, decide_True,
        Bool.true_and]
    · simp only [hc, false_and, if_false, pure, Except.pure, decide_False, Bool.false_and]
  · have hn : nextIsLower (s.drop (i + 1)) = false := by
      rw [List.drop_of_length_le (by omega)]
      rfl
    simp only [h1, and_false, if_false, pure, Except.pure, hn, Bool.and_false]

/-- The outer loop, started at index `i` with enough budget, returns its
accumulator followed by `camelTail` of the rest of the input. -/
theorem scan_eq (fuel : Nat) (s : Bytes) (i : Nat) (t : Bytes)
    (hfuel : s.length - i < fuel) (hi : i ≤ s.length) :
    scan fuel s i t = .ok (t ++ camelTail false (s.drop i)) := by
  induction fuel generalizing i t with
  | zero => omega
  | succ fuel ih =>
    rw [scan]
    by_cases h0 : i < s.length
    · have hd : s.drop i = s[i] :: s.drop (i + 1) := List.drop_eq_getElem_cons h0
      have hw := scan_word fuel s i t ih hfuel h0
      have hs := skip_test s i s[i]
      simp only [bind, Except.bind] at hw hs
      rw [if_pos h0, index_of_drop s i _ _ hd, hd, camelTail]
      simp only [bind, Except.bind, Bool.false_and, Bool.false_eq_true, if_false]
      rw [hs]
      simp only
      by_cases hsk : s[i] = 95 ∧ nextIsLower (s.drop (i + 1)) = true
      · have hb : (decide (s[i] = 95) && nextIsLower (s.drop (i + 1))) = true := by
          simp [hsk.1, hsk.2]
        rw [if_pos hsk, if_pos hb]
        exact ih (i + 1) t (by omega) (by omega)
      · have hb : ¬ (decide (s[i] = 95) && nextIsLower (s.drop (i + 1))) = true := by
          simpa using hsk
        rw [if_neg hsk, if_neg hb]
        exact hw
    · have : s.drop i = [] := List.drop_of_length_le (by omega)
      rw [if_neg h0, this]
      simp [camelTail, pure, Except.pure]

/-- With a budget of at least `len(s) + 1` the function returns, and its
result is `camelRef s`. -/
theorem CamelCaseN_eq (fuel : Nat) (s : Bytes) (hfuel : s.length < fuel) :
    CamelCaseN fuel s = .ok (camelRef s) := by
  cases s with
  | nil => simp [CamelCaseN, camelRef, pure, Except.pure]
  | cons c r =>
    have hidx : index (c :: r) 0 = .ok c := rfl
    simp only [CamelCaseN, hidx, bind, Except.bind, camelRef]
    by_cases hc : c = 95
    · simp only [hc, if_true]
      rw [scan_eq fuel _ 1 _ (by simp at hfuel ⊢; omega) (by simp)]
      simp
    · simp only [hc, if_false]
      rw [scan_eq fuel _ 0 _ (by simp at hfuel ⊢; omega) (by simp)]
      simp

theorem CamelCase_eq (s : Bytes) : CamelCase s = .ok (camelRef s) :=
  CamelCaseN_eq (s.length + 1) s (Nat.lt_succ_self _)

/-! ## `CamelCase`: underscores -/

theorem lower_ne_underscore (c : Nat) (h : isASCIILower c = true) : c ≠ 95 := by
  simp only [isASCIILower, Bool.and_eq_true, decide_eq_true_eq] at h
  omega

theorem digit_ne_underscore (c : Nat) (h : isASCIIDigit c = true) : c ≠ 95 := by
  simp only [isASCIIDigit, Bool.and_eq_true, decide_eq_true_eq] at h
  omega

/-- Clearing bit 5 of a lower-case letter gives the upper-case letter, 32
below it. -/
theorem upper_of_lower (c : Nat) (h : isASCIILower c = true) : c ^^^ 32 = c - 32 := by
  simp only [isASCIILower, Bool.and_eq_true, decide_eq_true_eq] at h
  obtain ⟨h1, h2⟩ := h
  interval_cases c <;> rfl

theorem count_camelTail (b : Bool) (l : Bytes) :
    (camelTail b l).count 95 = countKept l := by
  induction l generalizing b with
  | nil => simp [camelTail, countKept]
  | cons c r ih =>
    rw [camelTail, countKept]
    by_cases hbl : (b && isASCIILower c) = true
    · have hl : isASCIILower c = true := by
        simp only [Bool.and_eq_true] at hbl
        exact hbl.2
      have hc := lower_ne_underscore c hl
      rw [if_pos hbl, List.count_cons_of_ne (Ne.symm hc), ih]
      simp [hc]
    · rw [if_neg hbl]
      by_cases hsk : c = 95 ∧ nextIsLower r = true
      · rw [if_pos hsk, ih]
        simp [hsk.2]
      · rw [if_neg hsk]
        by_cases hdg : isASCIIDigit c = true
        · have hc := digit_ne_underscore c hdg
          rw [if_pos hdg, List.count_cons_of_ne (Ne.symm hc), ih]
          simp [hc]
        · rw [if_neg hdg]
          by_cases hl : isASCIILower c = true
          · have hc := lower_ne_underscore c hl
            have hu : c ^^^ 32 ≠ 95 := by
              rw [upper_of_lower c hl]
              simp only [isASCIILower, Bool.and_eq_true, decide_eq_true_eq] at hl
              omega
            rw [if_pos hl, List.count_cons_of_ne (Ne.symm hu), ih]
            simp [hc]
          · rw [if_neg hl]
            by_cases hc : c = 95
            · have hn : nextIsLower r = false := by
                cases hnr : nextIsLower r with
                | false => rfl
                | true => exact absurd ⟨hc, hnr⟩ hsk
              rw [hc, List.count_cons_self, ih]
              simp [hn, Nat.add_comm]
            · rw [List.count_cons_of_ne (Ne.symm hc), ih]
              simp [hc]

/-- Counting by position agrees with counting by recursion on the list. -/
theorem length_filter_kept (l : Bytes) :
    ((List.range l.length).filter fun i =>
        (l.get? i == some 95) &&
          (match l.get? (i + 1) with
            | none => true
            | some d => !isASCIILower d)).length
      = countKept l := by
  induction l with
  | nil => rfl
  | cons c r ih =>
    rw [List.length_cons, List.range_succ_eq_map, List.filter_cons, List.filter_map,
      countKept, ← ih]
    have hn : (match (c :: r).get? (0 + 1) with
        | none => true
        | some d => !isASCIILower d) = !nextIsLower r := by
      cases r <;> rfl
    rw [hn]
    by_cases hc : c = 95
    · cases hnr : nextIsLower r <;> simp [hc, hnr, Function.comp_def, Nat.add_comm]
    · have hc2 : ((c :: r).get? 0 == some 95) = false := by simpa using hc
      rw [hc2]
      simp [hc, Function.comp_def]

theorem length_retainedUnderscores (c : Nat) (r : Bytes) :
    (retainedUnderscores (c :: r)).length = countKept r := by
  rw [retainedUnderscores, List.length_cons, List.range_succ_eq_map, List.filter_cons,
    List.filter_map, ← length_filter_kept]
  simp [Function.comp_def]

/-- C4: `CamelCase` returns, and the number of underscores in its result is
the number of positions `i >= 1` of the input that hold an underscore which is
at the end of the input or is followed by a byte that is not a lower-case
letter: those underscores are kept, the ones in front of a lower-case letter
are dropped, and the one at position 0 is replaced by the marker. -/
theorem CamelCase_underscore_count (s : Bytes) :
    ∃ out, CamelCase s = .ok out ∧ out.count 95 = (retainedUnderscores s).length := by
  refine ⟨camelRef s, CamelCase_eq s, ?_⟩
  cases s with
  | nil => rfl
  | cons c r =>
    rw [length_retainedUnderscores, camelRef]
    by_cases hc : c = 95
    · rw [if_pos hc, List.count_cons_of_ne (by decide), count_camelTail]
    · rw [if_neg hc, count_camelTail, countKept]
      simp [hc]

theorem count_camelRef (s : Bytes) :
    (camelRef s).count 95 = (retainedUnderscores s).length := by
  cases s with
  | nil => rfl
  | cons c r =>
    rw [length_retainedUnderscores, camelRef]
    by_cases hc : c = 95
    · rw [if_pos hc, List.count_cons_of_ne (by decide), count_camelTail]
    · rw [if_neg hc, count_camelTail, countKept]
      simp [hc]

/-- C12, as stated, fails: the documented example `_my_field_name_2` is made of
letters, digits and underscores, and its result `XMyFieldName_2` contains an
underscore. -/
theorem CamelCase_keeps_an_underscore :
    ∃ out, CamelCase (ascii "_my_field_name_2") = .ok out ∧ 95 ∈ out :=
  ⟨ascii "XMyFieldName_2", rfl, by decide⟩

/-- C12, amended: `CamelCase` returns, and its result contains no underscore
exactly when every underscore of the input after index 0 is immediately
followed by a lower-case letter; an underscore at the end or in front of any
other byte stays in the result. -/
theorem CamelCase_no_underscore_iff (s : Bytes) :
    ∃ out, CamelCase s = .ok out ∧ (95 ∉ out ↔ retainedUnderscores s = []) := by
  refine ⟨camelRef s, CamelCase_eq s, ?_⟩
  rw [← List.count_eq_zero, count_camelRef, List.length_eq_zero]

/-! ## `CamelCase`: the marker for a leading underscore -/

/-- C13: on an input that begins with an underscore the result begins with
the marker `X`; and when the rest `r` is empty or does not itself begin with
an underscore, the result is `X` followed by the result for `r`. -/
theorem CamelCase_leading_underscore (r : Bytes) :
    (∃ t, CamelCase (95 :: r) = .ok (88 :: t))
      ∧ (r.head? ≠ some 95 →
          ∃ out, CamelCase r = .ok out ∧ CamelCase (95 :: r) = .ok (88 :: out)) := by
  have h1 : CamelCase (95 :: r) = .ok (88 :: camelTail false r) := by
    rw [CamelCase_eq, camelRef, if_pos rfl]
  refine ⟨⟨_, h1⟩, fun h => ⟨camelRef r, CamelCase_eq r, ?_⟩⟩
  rw [h1]
  cases r with
  | nil => rfl
  | cons c r1 =>
    have hc : c ≠ 95 := fun hc => h (by rw [hc]; rfl)
    rw [camelRef, if_neg hc]

theorem CamelCase_leading_underscore_witness :
    ∃ out, CamelCase (ascii "my_id") = .ok out
      ∧ CamelCase (95 :: ascii "my_id") = .ok (88 :: out) :=
  (CamelCase_leading_underscore (ascii "my_id")).2 (by decide)

/-! ## `CamelCase`: totality -/

/-- C18: `CamelCase` returns a result for every input: neither the outer loop
nor the inner loop exhausts its budget or indexes outside the input; the
result is the same for every larger budget of the outer loop, so it depends
on the input alone; and the empty input gives the empty output. -/
theorem CamelCase_total (s : Bytes) :
    ∃ out, CamelCase s = .ok out
      ∧ (∀ k, CamelCaseN (s.length + 1 + k) s = .ok out)
      ∧ (∀ k i t, i < s.length → lowerRun (s.length + 1 + k) s i t = lowerRun (s.length + 1) s i t)
      ∧ CamelCase [] = .ok [] := by
  refine ⟨camelRef s, CamelCase_eq s, fun k => CamelCaseN_eq _ s (by omega), ?_, rfl⟩
  intro k i t hi
  rw [lowerRun_eq _ s i t (by omega) hi, lowerRun_eq _ s i t (by omega) hi]

theorem CamelCase_total_witness :
    ∃ out, CamelCase (ascii "a_b") = .ok out ∧ CamelCaseN 9 (ascii "a_b") = .ok out :=
  let ⟨out, h1, h2, _⟩ := CamelCase_total (ascii "a_b")
  ⟨out, h1, h2 5⟩

/-! ## `CamelCase`: the position-wise description -/

/-- In front of a byte that is not a lower-case letter it does not matter
whether a word is being continued. -/
theorem camelTail_flag (b : Bool) (l : Bytes) (h : nextIsLower l = false) :
    camelTail b l = camelTail false l := by
  cases l with
  | nil => simp [camelTail]
  | cons c r =>
    have hc : isASCIILower c = false := h
    rw [camelTail, camelTail]
    simp [hc]

theorem lower_not_digit (c : Nat) (h : isASCIILower c = true) : isASCIIDigit c = false := by
  simp only [isASCIILower, Bool.and_eq_true, decide_eq_true_eq] at h
  simp only [isASCIIDigit, Bool.and_eq_false_iff, decide_eq_false_iff_not]
  omega

theorem camelTail_eq_piecesFrom (l : Bytes) (b : Bool) (p : Nat)
    (h : nextIsLower l = true → b = !(isASCIIDigit p || decide (p = 95))) :
    camelTail b l = piecesFrom (some p) l := by
  induction l generalizing b p with
  | nil => rfl
  | cons c r ih =>
    have hnext : holds isASCIILower r.head? = nextIsLower r := by
      cases r <;> rfl
    rw [camelTail, piecesFrom, pieceOf, hnext]
    simp only [reduceCtorEq, false_and, if_false, ne_eq, not_false_eq_true, true_and, false_or,
      holds, Option.some.injEq]
    by_cases hbl : (b && isASCIILower c) = true
    · simp only [Bool.and_eq_true] at hbl
      have hc := lower_ne_underscore c hbl.2
      have hb := h hbl.2
      rw [hbl.1] at hb
      have hp : ¬ (isASCIIDigit p = true ∨ p = 95) := by
        intro hp
        rcases hp with hp | hp <;> simp [hp] at hb
      rw [if_pos (by simp [hbl.1, hbl.2]), if_neg (by simp [hc]), if_neg (by simp [hp])]
      rw [ih true c (fun _ => by simp [lower_not_digit c hbl.2, hc])]
      rfl
    · rw [if_neg hbl]
      by_cases hsk : c = 95 ∧ nextIsLower r = true
      · rw [if_pos hsk, if_pos hsk, ih false c (fun _ => by simp [hsk.1])]
        rfl
      · rw [if_neg hsk, if_neg hsk]
        by_cases hdg : isASCIIDigit c = true
        · have hl : isASCIILower c = false := by
            cases hl : isASCIILower c with
            | false => rfl
            | true => rw [lower_not_digit c hl] at hdg; cases hdg
          rw [if_pos hdg, if_neg (by simp [hl]), ih false c (fun _ => by simp [hdg])]
          rfl
        · rw [if_neg hdg]
          have hrec : camelTail true r = piecesFrom (some c) r := by
            apply ih
            intro hn
            have hc : c ≠ 95 := fun hc => hsk ⟨hc, hn⟩
            simp [hdg, hc]
          rw [hrec]
          by_cases hl : isASCIILower c = true
          · have hb : b = false := by
              cases b with
              | false => rfl
              | true => simp [hl] at hbl
            have hp := h hl
            rw [hb] at hp
            have hp2 : isASCIIDigit p = true ∨ p = 95 := by
              by_contra hcon
              simp only [not_or] at hcon
              simp [hcon.1, hcon.2] at hp
            rw [if_pos hl, if_pos ⟨hl, hp2⟩, upper_of_lower c hl]
            rfl
          · rw [if_neg hl, if_neg (by simp [hl])]
            rfl

theorem camelRef_eq_piecesFrom (s : Bytes) : camelRef s = piecesFrom none s := by
  cases s with
  | nil => rfl
  | cons c r =>
    rw [camelRef, piecesFrom, pieceOf]
    simp only [true_and, ne_eq, not_true_eq_false, false_and, if_false, true_or, and_true]
    by_cases hc : c = 95
    · rw [if_pos hc, if_pos hc, hc, camelTail_eq_piecesFrom r false 95 (fun _ => by simp)]
      rfl
    · rw [if_neg hc, if_neg hc, camelTail]
      simp only [Bool.false_and, Bool.false_eq_true, if_false, hc, false_and]
      by_cases hdg : isASCIIDigit c = true
      · have hl : isASCIILower c = false := by
          cases hl : isASCIILower c with
          | false => rfl
          | true => rw [lower_not_digit c hl] at hdg; cases hdg
        rw [if_pos hdg, if_neg (by simp [hl]),
          camelTail_eq_piecesFrom r false c (fun _ => by simp [hdg])]
        rfl
      · rw [if_neg hdg, camelTail_eq_piecesFrom r true c (fun _ => by simp [hdg, hc])]
        by_cases hl : isASCIILower c = true
        · rw [if_pos hl, if_pos hl, upper_of_lower c hl]
          rfl
        · rw [if_neg hl, if_neg hl]
          rfl

theorem get?_append_length (p : Bytes) (c : Nat) (r : Bytes) :
    (p ++ c :: r).get? p.length = some c := by
  rw [List.get?_eq_getElem?, List.getElem?_append_right (Nat.le_refl _)]
  simp

theorem get?_append_length_succ (p : Bytes) (c : Nat) (r : Bytes) :
    (p ++ c :: r).get? (p.length + 1) = r.head? := by
  rw [List.get?_eq_getElem?, List.getElem?_append_right (Nat.le_succ _)]
  cases r <;> simp

theorem prevAt_append_length (p : Bytes) (c : Nat) (r : Bytes) :
    prevAt (p ++ c :: r) p.length = p.getLast? := by
  unfold prevAt
  by_cases hp : p.length = 0
  · rw [if_pos hp, List.length_eq_zero.mp hp]
    rfl
  · rw [if_neg hp, List.get?_eq_getElem?, List.getElem?_append_left (by omega),
      List.getLast?_eq_getElem?]

/-- The pieces of the indices from `len(p)` on, in a string `p ++ l`, are the
pieces by recursion on `l`. -/
theorem flatMap_camelPiece (l p : Bytes) :
    ((List.range l.length).flatMap fun j => camelPiece (p ++ l) (p.length + j))
      = piecesFrom p.getLast? l := by
  induction l generalizing p with
  | nil => rfl
  | cons c r ih =>
    rw [List.length_cons, List.range_succ_eq_map, List.flatMap_cons, List.flatMap_map,
      piecesFrom]
    have hhead : camelPiece (p ++ c :: r) (p.length + 0) = pieceOf p.getLast? c r.head? := by
      rw [Nat.add_zero, camelPiece, get?_append_length, get?_append_length_succ,
        prevAt_append_length]
    have htail : ∀ j, camelPiece (p ++ c :: r) (p.length + Nat.succ j)
        = camelPiece ((p ++ [c]) ++ r) ((p ++ [c]).length + j) := by
      intro j
      rw [List.append_assoc, List.singleton_append, List.length_append, List.length_singleton,
        Nat.add_assoc, Nat.add_comm 1 j]
    rw [hhead]
    simp only [htail]
    rw [ih (p ++ [c]), List.getLast?_append]
    rfl

theorem camelSpec_eq_piecesFrom (s : Bytes) : camelSpec s = piecesFrom none s := by
  have h := flatMap_camelPiece s []
  simp only [List.nil_append, List.length_nil, Nat.zero_add] at h
  exact h

/-- C19: for every byte string, `CamelCase` returns the position-wise
description: the pieces, for the indices in order, `X` for an underscore at
index 0, nothing for a later underscore followed by a lower-case letter, the
upper-case form of a lower-case letter that is at index 0 or comes after a
digit or an underscore, and the byte itself otherwise. -/
theorem CamelCase_position_wise (s : Bytes) : CamelCase s = .ok (camelSpec s) := by
  rw [CamelCase_eq, camelRef_eq_piecesFrom, camelSpec_eq_piecesFrom]

/-! ## `CamelCase`: the casing of letters -/

theorem toUpper_ne_underscore (c : Nat) (h : isASCIILower c = true) : toUpper c ≠ 95 := by
  simp only [isASCIILower, Bool.and_eq_true, decide_eq_true_eq] at h
  unfold toUpper
  omega

/-- Dropping the underscores from a piece of the position-wise description
leaves what `casedPiece` says, a digit starting a word. -/
theorem filter_pieceOf (prev : Option Nat) (c : Nat) (next : Option Nat) :
    (pieceOf prev c next).filter (fun x => x != 95) = casedPiece true prev c := by
  unfold pieceOf casedPiece
  by_cases hc : c = 95
  · have hl : isASCIILower c = false := by
      rw [hc]
      rfl
    by_cases hp : prev = none
    · simp [hc, hp]
    · by_cases hn : holds isASCIILower next = true
      · simp [hc, hp, hn]
      · have hl95 : isASCIILower 95 = false := rfl
        simp [hc, hp, hn, hl95]
  · by_cases hl : isASCIILower c = true
    · have hu := toUpper_ne_underscore c hl
      by_cases hw : prev = none ∨ holds isASCIIDigit prev = true ∨ prev = some 95
      · have hw2 : prev = none ∨ prev = some 95 ∨ holds isASCIIDigit prev = true := by
          rcases hw with h | h | h
          · exact Or.inl h
          · exact Or.inr (Or.inr h)
          · exact Or.inr (Or.inl h)
        simp [hc, hl, hw, hw2, hu]
      · have hw2 : ¬ (prev = none ∨ prev = some 95 ∨ holds isASCIIDigit prev = true) := by
          intro h
          rcases h with h | h | h
          · exact hw (Or.inl h)
          · exact hw (Or.inr (Or.inr h))
          · exact hw (Or.inr (Or.inl h))
        simp [hc, hl, hw, hw2]
    · simp [hc, hl]

theorem filter_camelSpec (s : Bytes) :
    (camelSpec s).filter (fun x => x != 95) = lettersCased s := by
  unfold camelSpec lettersCased
  rw [List.filter_flatMap]
  apply List.flatMap_congr
  intro i _
  unfold camelPiece
  cases s.get? i with
  | none => rfl
  | some c => exact filter_pieceOf _ c _

/-- C11, as stated, fails: in `a1b` the letter `b` is neither the first byte
nor right after an underscore, and `CamelCase` turns it into upper case: the
result is `A1B`, where the wording of the claim gives `A1b`. -/
theorem CamelCase_capitalises_after_digit :
    ∃ out, CamelCase (ascii "a1b") = .ok out
      ∧ out.filter (fun x => x != 95) ≠ lettersAsClaimed (ascii "a1b") :=
  ⟨ascii "A1B", rfl, by decide⟩

/-- C11, amended: `CamelCase` returns, and the letters and digits of its
result, in order (with the marker for a leading underscore), are those of the
input, each byte as it was except that a lower-case letter is in upper case
when it is the first byte of the input or comes right after an underscore or
right after a digit; digits are copied unchanged. -/
theorem CamelCase_letter_casing (s : Bytes) :
    ∃ out, CamelCase s = .ok out ∧ out.filter (fun x => x != 95) = lettersCased s :=
  ⟨camelSpec s, by rw [CamelCase_eq, camelRef_eq_piecesFrom, camelSpec_eq_piecesFrom],
    filter_camelSpec s⟩

/-! ## `CamelCase`: idempotence -/

/-- The byte that starts a word, `c` or its upper-case form, is not a
lower-case letter, is not a digit when `c` is not, and is an underscore only
when `c` is. -/
theorem word_start (c : Nat) (hdg : ¬ isASCIIDigit c = true) :
    isASCIILower (if isASCIILower c = true then c ^^^ 32 else c) = false
      ∧ isASCIIDigit (if isASCIILower c = true then c ^^^ 32 else c) = false
      ∧ ((if isASCIILower c = true then c ^^^ 32 else c) = 95 → c = 95) := by
  by_cases hl : isASCIILower c = true
  · rw [if_pos hl, upper_of_lower c hl]
    simp only [isASCIILower, Bool.and_eq_true, decide_eq_true_eq] at hl
    simp only [isASCIILower, isASCIIDigit, Bool.and_eq_false_iff, decide_eq_false_iff_not]
    refine ⟨?_, ?_, ?_⟩ <;> omega
  · rw [if_neg hl]
    exact ⟨by simpa using hl, by simpa using hdg, id⟩

theorem digit_not_lower (c : Nat) (h : isASCIIDigit c = true) : isASCIILower c = false := by
  simp only [isASCIIDigit, Bool.and_eq_true, decide_eq_true_eq] at h
  simp only [isASCIILower, Bool.and_eq_false_iff, decide_eq_false_iff_not]
  omega

/-- What the outer loop writes at its own turn never starts with a lower-case
letter. -/
theorem nextIsLower_camelTail (l : Bytes) : nextIsLower (camelTail false l) = false := by
  induction l with
  | nil => rfl
  | cons c r ih =>
    rw [camelTail]
    simp only [Bool.false_and, Bool.false_eq_true, if_false]
    by_cases hsk : c = 95 ∧ nextIsLower r = true
    · rw [if_pos hsk]
      exact ih
    · rw [if_neg hsk]
      by_cases hdg : isASCIIDigit c = true
      · rw [if_pos hdg]
        exact digit_not_lower c hdg
      · rw [if_neg hdg]
        exact (word_start c hdg).1

theorem nextIsLower_camelTail_true (r : Bytes) (h : nextIsLower r = false) :
    nextIsLower (camelTail true r) = false := by
  rw [camelTail_flag true r h]
  exact nextIsLower_camelTail r

theorem camelTail_idem (l : Bytes) (b : Bool) :
    camelTail b (camelTail b l) = camelTail b l := by
  induction l generalizing b with
  | nil => simp [camelTail]
  | cons c r ih =>
    by_cases hbl : (b && isASCIILower c) = true
    · have e : camelTail b (c :: r) = c :: camelTail true r := by
        rw [camelTail, if_pos hbl]
      rw [e, camelTail, if_pos hbl, ih true]
    · by_cases hsk : c = 95 ∧ nextIsLower r = true
      · have e : camelTail b (c :: r) = camelTail false r := by
          rw [camelTail, if_neg hbl, if_pos hsk]
        rw [e, camelTail_flag b _ (nextIsLower_camelTail r), ih false]
      · by_cases hdg : isASCIIDigit c = true
        · have e : camelTail b (c :: r) = c :: camelTail false r := by
            rw [camelTail, if_neg hbl, if_neg hsk, if_pos hdg]
          have hc := digit_ne_underscore c hdg
          rw [e, camelTail, if_neg hbl, if_neg (fun h => hc h.1), if_pos hdg, ih false]
        · have e : camelTail b (c :: r)
              = (if isASCIILower c = true then c ^^^ 32 else c) :: camelTail true r := by
            rw [camelTail, if_neg hbl, if_neg hsk, if_neg hdg]
          obtain ⟨hl1, hd1, h95⟩ := word_start c hdg
          have hsk1 : ¬ ((if isASCIILower c = true then c ^^^ 32 else c) = 95
              ∧ nextIsLower (camelTail true r) = true) := by
            intro h
            have hc := h95 h.1
            have hn : nextIsLower r = false := by
              cases hnr : nextIsLower r with
              | false => rfl
              | true => exact absurd ⟨hc, hnr⟩ hsk
            rw [nextIsLower_camelTail_true r hn] at h
            exact Bool.false_ne_true h.2
          rw [e, camelTail, if_neg (by simp [hl1]), if_neg hsk1, if_neg (by simp [hd1]),
            if_neg (by simp [hl1]), ih true]

theorem head_not_lower (l : Bytes) (h : nextIsLower l = false) :
    ∀ y ∈ l.head?, isASCIILower y = false := by
  cases l with
  | nil => simp
  | cons c r =>
    intro y hy
    simp only [List.head?_cons, Option.mem_def, Option.some.injEq] at hy
    rw [← hy]
    exact h

/-- In what the loop writes, no lower-case letter comes right after an
underscore or a digit. -/
theorem chain_camelTail (l : Bytes) (b : Bool) :
    List.Chain' (fun x y => (x = 95 ∨ isASCIIDigit x = true) → isASCIILower y = false)
      (camelTail b l) := by
  induction l generalizing b with
  | nil => simp [camelTail]
  | cons c r ih =>
    rw [camelTail]
    by_cases hbl : (b && isASCIILower c) = true
    · rw [if_pos hbl, List.chain'_cons']
      simp only [Bool.and_eq_true] at hbl
      refine ⟨fun y _ hc => ?_, ih true⟩
      rcases hc with hc | hc
      · exact absurd hc (lower_ne_underscore c hbl.2)
      · rw [lower_not_digit c hbl.2] at hc
        cases hc
    · rw [if_neg hbl]
      by_cases hsk : c = 95 ∧ nextIsLower r = true
      · rw [if_pos hsk]
        exact ih false
      · rw [if_neg hsk]
        by_cases hdg : isASCIIDigit c = true
        · rw [if_pos hdg, List.chain'_cons']
          exact ⟨fun y hy _ => head_not_lower _ (nextIsLower_camelTail r) y hy, ih false⟩
        · rw [if_neg hdg, List.chain'_cons']
          obtain ⟨_, hd1, h95⟩ := word_start c hdg
          refine ⟨fun y hy hc => ?_, ih true⟩
          rcases hc with hc | hc
          · have hn : nextIsLower r = false := by
              cases hnr : nextIsLower r with
              | false => rfl
              | true => exact absurd ⟨h95 hc, hnr⟩ hsk
            exact head_not_lower _ (nextIsLower_camelTail_true r hn) y hy
          · rw [hd1] at hc
            cases hc

theorem head_camelRef (s : Bytes) :
    ∀ y ∈ (camelRef s).head?, y ≠ 95 ∧ isASCIILower y = false := by
  cases s with
  | nil => simp [camelRef]
  | cons c r =>
    rw [camelRef]
    by_cases hc : c = 95
    · rw [if_pos hc]
      intro y hy
      simp only [List.head?_cons, Option.mem_def, Option.some.injEq] at hy
      rw [← hy]
      exact ⟨by decide, by decide⟩
    · rw [if_neg hc]
      intro y hy
      refine ⟨?_, head_not_lower _ (nextIsLower_camelTail (c :: r)) y hy⟩
      rw [camelTail] at hy
      simp only [Bool.false_and, Bool.false_eq_true, if_false, hc, false_and] at hy
      by_cases hdg : isASCIIDigit c = true
      · rw [if_pos hdg] at hy
        simp only [List.head?_cons, Option.mem_def, Option.some.injEq] at hy
        rw [← hy]
        exact hc
      · rw [if_neg hdg] at hy
        simp only [List.head?_cons, Option.mem_def, Option.some.injEq] at hy
        rw [← hy]
        exact fun h => hc ((word_start c hdg).2.2 h)

theorem camelTail_camelRef (s : Bytes) : camelTail false (camelRef s) = camelRef s := by
  cases s with
  | nil => rfl
  | cons c r =>
    rw [camelRef]
    by_cases hc : c = 95
    · rw [if_pos hc, camelTail]
      have h88l : isASCIILower 88 = false := by decide
      have h88d : isASCIIDigit 88 = false := by decide
      simp only [Bool.false_and, Bool.false_eq_true, if_false, h88l, h88d]
      rw [if_neg (fun h => absurd h.1 (by decide)),
        camelTail_flag true _ (nextIsLower_camelTail r), camelTail_idem r false]
    · rw [if_neg hc, camelTail_idem (c :: r) false]

theorem camelRef_idem (s : Bytes) : camelRef (camelRef s) = camelRef s := by
  have hhead := head_camelRef s
  have htail := camelTail_camelRef s
  cases hout : camelRef s with
  | nil => rfl
  | cons x t =>
    rw [hout] at hhead htail
    have hx : x ≠ 95 := (hhead x rfl).1
    rw [camelRef, if_neg hx, htail]

theorem chain_camelRef (s : Bytes) :
    List.Chain' (fun x y => (x = 95 ∨ isASCIIDigit x = true) → isASCIILower y = false)
      (camelRef s) := by
  cases s with
  | nil => simp [camelRef]
  | cons c r =>
    rw [camelRef]
    by_cases hc : c = 95
    · rw [if_pos hc, List.chain'_cons']
      refine ⟨fun y _ h => ?_, chain_camelTail r false⟩
      rcases h with h | h
      · exact absurd h (by decide)
      · exact absurd h (by decide)
    · rw [if_neg hc]
      exact chain_camelTail (c :: r) false

/-- C20: `CamelCase` is idempotent: it returns a result, and applied to that
result it returns it again.  The result does not start with an underscore or
a lower-case letter, and in it no lower-case letter comes right after an
underscore or right after a digit. -/
theorem CamelCase_idempotent (s : Bytes) :
    ∃ out, CamelCase s = .ok out ∧ CamelCase out = .ok out
      ∧ (∀ y ∈ out.head?, y ≠ 95 ∧ isASCIILower y = false)
      ∧ List.Chain' (fun x y => (x = 95 ∨ isASCIIDigit x = true) → isASCIILower y = false)
          out := by
  refine ⟨camelRef s, CamelCase_eq s, ?_, head_camelRef s, chain_camelRef s⟩
  rw [CamelCase_eq, camelRef_idem]

/-! ## `P` on references -/

theorem printValue_ref (fmtG : Nat → Bytes) (g : Generate) (v : Value)
    (hv : v.isScalar = true) (hb : ∀ b, v ≠ .bytes b) :
    Generate.printValue fmtG g v.ref = Generate.printValue fmtG g v := by
  cases v with
  | bytes b => exact absurd rfl (hb b)
  | string s => rfl
  | bool b => rfl
  | int32 n => rfl
  | int64 n => rfl
  | float64 x => rfl
  | _ => simp [Value.isScalar] at hv

theorem supported_of_isScalar (v : Value) (hv : v.isScalar = true) : v.supported = true := by
  cases v <;> simp [Value.isScalar] at hv <;> rfl

/-- C14, as stated, fails for the byte sequence: `P` prints a `[]byte`, and on
a pointer to that `[]byte`, a type its switch does not list, it ends in
`Fail`. -/
theorem P_bytes_ref_fails :
    (Value.bytes [1, 2]).isScalar = true
      ∧ (New [] []).P (fun _ => []) [.bytes [1, 2]]
        = .ok { New [] [] with Buffer := ascii "[1 2]\n" }
      ∧ (New [] []).P (fun _ => []) [(Value.bytes [1, 2]).ref]
        = .error (.exit (ascii "unknown type in printer: *[]uint8")) :=
  ⟨rfl, rfl, rfl⟩

/-- C14, amended: for every value `v` that is a text, a boolean, a 32-bit
integer, a 64-bit integer or a float, `P` on a non-nil reference to `v`, alone
or among other arguments, does what `P` does on `v` itself, and `P` on the
reference alone returns, having written the indentation, the text of `v` and
a newline. -/
theorem P_dereferences (fmtG : Nat → Bytes) (g : Generate) (v : Value)
    (pre post : List Value) (hv : v.isScalar = true) (hb : ∀ b, v ≠ .bytes b) :
    g.P fmtG (pre ++ v.ref :: post) = g.P fmtG (pre ++ v :: post)
      ∧ g.P fmtG [v.ref] = g.P fmtG [v]
      ∧ g.P fmtG [v.ref]
        = .ok { g with Buffer := g.Buffer ++ g.indent ++ scalarText fmtG v ++ [10] } := by
  have hone : g.P fmtG [v.ref] = g.P fmtG [v] := by
    simp only [Generate.P, List.foldlM_cons, printValue_ref fmtG _ v hv hb]
  refine ⟨?_, hone, ?_⟩
  · simp only [Generate.P, List.foldlM_append, List.foldlM_cons,
      printValue_ref fmtG _ v hv hb]
  · rw [hone, P_supported fmtG g [v] (by
      intro w hw
      rw [List.mem_singleton.mp hw]
      exact supported_of_isScalar v hv)]
    simp

theorem P_dereferences_witness :
    (New [] []).In.P (fun _ => []) [(Value.int64 (-12)).ref]
      = .ok { (New [] []).In with Buffer := ascii "\t-12\n" } :=
  (P_dereferences (fun _ => []) (New [] []).In (.int64 (-12)) [] [] rfl
    (fun _ h => Value.noConfusion h)).2.2

/-! ## `Symbol`: results and failures -/

/-- A value `Symbol` does not accept and that is not a nil pointer sends its
loop into `Fail`. -/
theorem symbolValue_rejects_exit (fmtG : Nat → Bytes) (rst : Bytes) (v : Value)
    (h : v.symbolAccepts = false) (hn : v.isNilRef = false) :
    ∃ msg, Generate.symbolValue fmtG rst v = .error (.exit msg) := by
  cases v with
  | stringPtr p | int32Ptr p | int64Ptr p | float64Ptr p =>
    cases p with
    | none => simp [Value.isNilRef] at hn
    | some x => simp [Value.symbolAccepts, Value.supported, Value.isBoolKind] at h
  | other n => exact ⟨_, rfl⟩
  | bool b => exact ⟨_, rfl⟩
  | boolPtr p => exact ⟨_, rfl⟩
  | _ => simp [Value.symbolAccepts, Value.supported, Value.isBoolKind] at h

theorem foldlM_symbolValue_exit (fmtG : Nat → Bytes) (vs : List Value) (rst : Bytes)
    (h : ∃ v ∈ vs, v.symbolAccepts = false) (hn : ∀ v ∈ vs, v.isNilRef = false) :
    ∃ msg, vs.foldlM (Generate.symbolValue fmtG) rst = .error (.exit msg) := by
  induction vs generalizing rst with
  | nil => simp at h
  | cons v vs ih =>
    rw [List.foldlM_cons]
    by_cases hv : v.symbolAccepts = true
    · have hvs : ∃ w ∈ vs, w.symbolAccepts = false := by
        obtain ⟨w, hw, hws⟩ := h
        rcases List.mem_cons.mp hw with rfl | hw
        · simp [hv] at hws
        · exact ⟨w, hw, hws⟩
      rw [symbolValue_accepts fmtG rst v hv]
      simpa [bind, Except.bind] using ih _ hvs (fun w hw => hn w (List.mem_cons_of_mem _ hw))
    · obtain ⟨msg, he⟩ := symbolValue_rejects_exit fmtG rst v (by simpa using hv)
        (hn v (List.mem_cons_self _ _))
      exact ⟨msg, by simp [he, bind, Except.bind]⟩

/-- On accepted values and a delimiter other than `(` and `"`, `Symbol` ends
in `Fail("unknown symbol", string(symbol))`. -/
theorem Symbol_unknown_symbol (fmtG : Nat → Bytes) (g : Generate) (symbol : Nat)
    (vs : List Value) (h : ∀ v ∈ vs, v.symbolAccepts = true)
    (h40 : symbol ≠ 40) (h34 : symbol ≠ 34) :
    g.Symbol fmtG symbol vs
      = .error (.exit (ascii "unknown symbol" ++ ascii " " ++ byteToString symbol)) := by
  simp only [Generate.Symbol, foldlM_symbolValue fmtG vs _ h, bind, Except.bind, h40, h34,
    if_false, Generate.Fail, stringsJoin]
  simp [List.intercalate]

/-- C15, as stated, fails: with the delimiter `[` and a nil `*string`, a
pointer type `Symbol` lists, the loop panics on `*s` before any `Fail` is
reached, so the failure is not reported through `Fail`; and with the
delimiter `(` the same value, of an accepted kind, gives no result. -/
theorem Symbol_nil_panics_before_Fail :
    (New [] []).Symbol (fun _ => []) 91 [.stringPtr none] = .error .nilDeref
      ∧ ¬ (∃ msg, (New [] []).Symbol (fun _ => []) 91 [.stringPtr none] = .error (.exit msg))
      ∧ (New [] []).Symbol (fun _ => []) 40 [.stringPtr none] = .error .nilDeref := by
  refine ⟨rfl, ?_, rfl⟩
  rintro ⟨msg, h⟩
  cases h

/-- C15, amended: `Symbol` returns a result exactly when the delimiter is `(`
or `"` and every value is one it accepts (an accepted kind, a reference not
nil).  For any other delimiter it returns no result, whatever the values;
when no value is a nil pointer it ends in `Fail`; and with no values at all it
ends in `Fail` with the message `unknown symbol` followed by the delimiter. -/
theorem Symbol_result_iff (fmtG : Nat → Bytes) (g : Generate) (symbol : Nat)
    (vs : List Value) :
    ((∃ r, g.Symbol fmtG symbol vs = .ok r)
        ↔ ((symbol = 40 ∨ symbol = 34) ∧ ∀ v ∈ vs, v.symbolAccepts = true))
      ∧ (symbol ≠ 40 → symbol ≠ 34 →
          (∃ e, g.Symbol fmtG symbol vs = .error e)
            ∧ ((∀ v ∈ vs, v.isNilRef = false) →
                ∃ msg, g.Symbol fmtG symbol vs = .error (.exit msg))
            ∧ g.Symbol fmtG symbol []
              = .error (.exit (ascii "unknown symbol" ++ ascii " " ++ byteToString symbol))) := by
  by_cases ha : ∀ v ∈ vs, v.symbolAccepts = true
  · refine ⟨⟨fun hr => ⟨?_, ha⟩, fun hs => ?_⟩, fun h40 h34 => ⟨?_, fun _ => ?_, ?_⟩⟩
    · by_contra hs
      simp only [not_or] at hs
      obtain ⟨r, hr⟩ := hr
      rw [Symbol_unknown_symbol fmtG g symbol vs ha hs.1 hs.2] at hr
      cases hr
    · rcases hs.1 with h | h
      · rw [h]
        exact ⟨_, Symbol_paren_accepts fmtG g vs ha⟩
      · rw [h]
        exact ⟨_, Symbol_quote_accepts fmtG g vs ha⟩
    · exact ⟨_, Symbol_unknown_symbol fmtG g symbol vs ha h40 h34⟩
    · exact ⟨_, Symbol_unknown_symbol fmtG g symbol vs ha h40 h34⟩
    · exact Symbol_unknown_symbol fmtG g symbol [] (by simp) h40 h34
  · have hr : ∃ v ∈ vs, v.symbolAccepts = false := by
      simpa using ha
    obtain ⟨e, he⟩ := Symbol_rejects fmtG g symbol vs hr
    refine ⟨⟨fun hok => ?_, fun hs => absurd hs.2 ha⟩, fun h40 h34 => ⟨⟨e, he⟩, fun hn => ?_, ?_⟩⟩
    · obtain ⟨r, hok⟩ := hok
      rw [he] at hok
      cases hok
    · obtain ⟨msg, hm⟩ := foldlM_symbolValue_exit fmtG vs (byteToString symbol) hr hn
      exact ⟨msg, by simp [Generate.Symbol, hm, bind, Except.bind]⟩
    · exact Symbol_unknown_symbol fmtG g symbol [] (by simp) h40 h34

theorem Symbol_result_iff_witness :
    (∃ msg, (New [] []).Symbol (fun _ => []) 91 [.string (ascii "x"), .bool true]
        = .error (.exit msg))
      ∧ (New [] []).Symbol (fun _ => []) 91 [] = .error (.exit (ascii "unknown symbol [")) :=
  have h := (Symbol_result_iff (fun _ => []) (New [] []) 91 [.string (ascii "x"), .bool true]).2
    (by decide) (by decide)
  ⟨h.2.1 (by decide), h.2.2.trans (by rfl)⟩

/-! ## Writing the file: formatted and verbatim -/

/-- When the parser accepts the text and the formatter reports an error,
`gofmt` logs it and returns the bytes it was given. -/
theorem gofmt_formatter_error {File Err : Type} (parseFile : Bytes → Except Err File)
    (formatNode : File → Except Err Bytes) (outFilePath fileName srcCode : Bytes)
    (file : File) (e : Err) (hparse : parseFile srcCode = .ok file)
    (hformat : formatNode file = .error e) :
    Generate.gofmt parseFile formatNode outFilePath fileName srcCode = srcCode := by
  simp [Generate.gofmt, hparse, hformat]

/-- C16: when the file name ends in `.go` and the parser accepts the
accumulated text, `gofmt` returns the formatter's output for the parsed
program, whatever the raw text was, and `WriteFile`, once the file is created,
writes that output. -/
theorem WriteFile_formatted {File Err : Type} (parseFile : Bytes → Except Err File)
    (formatNode : File → Except Err Bytes) (createOk : Bool) (outFilePath : Bytes)
    (g : Generate) (file : File) (out : Bytes)
    (hgo : stringsHasSuffix g.fileName (ascii ".go") = true)
    (hparse : parseFile g.Buffer = .ok file)
    (hformat : formatNode file = .ok out) :
    Generate.gofmt parseFile formatNode outFilePath g.fileName g.Bytes = out
      ∧ g.WriteFile parseFile formatNode createOk outFilePath
        = if createOk = true then .ok out else .error .createFailed := by
  have hfmt : Generate.gofmt parseFile formatNode outFilePath g.fileName g.Bytes = out := by
    simp [Generate.gofmt, Generate.Bytes, hparse, hformat]
  refine ⟨hfmt, ?_⟩
  cases createOk with
  | false => simp [Generate.WriteFile]
  | true => simp [Generate.WriteFile, hgo, hfmt, pure, Except.pure]

theorem WriteFile_formatted_witness :
    ({ New (ascii "pkg") (ascii "x.go") with Buffer := ascii "package  x" } :
        Generate).WriteFile
        (fun _ => (Except.ok 3 : Except Nat Nat)) (fun _ => .ok (ascii "package x\n"))
        true (ascii "out")
      = .ok (ascii "package x\n") :=
  (WriteFile_formatted (fun _ => (Except.ok 3 : Except Nat Nat))
    (fun _ => .ok (ascii "package x\n")) true (ascii "out")
    { New (ascii "pkg") (ascii "x.go") with Buffer := ascii "package  x" } 3
    (ascii "package x\n") rfl rfl rfl).2

/-- C17: when the file name does not end in `.go`, `WriteFile`, once the file
is created, writes exactly the accumulated bytes, whatever the buffer holds
and whatever the parser and the formatter would do with it: the result is the
same for any two parsers and formatters. -/
theorem WriteFile_verbatim {File Err File2 Err2 : Type}
    (parseFile : Bytes → Except Err File) (formatNode : File → Except Err Bytes)
    (parseFile2 : Bytes → Except Err2 File2) (formatNode2 : File2 → Except Err2 Bytes)
    (createOk : Bool) (outFilePath : Bytes) (g : Generate)
    (hgo : stringsHasSuffix g.fileName (ascii ".go") = false) :
    g.WriteFile parseFile formatNode createOk outFilePath
        = (if createOk = true then .ok g.Buffer else .error .createFailed)
      ∧ g.WriteFile parseFile formatNode createOk outFilePath
        = g.WriteFile parseFile2 formatNode2 createOk outFilePath := by
  cases createOk with
  | false => simp [Generate.WriteFile]
  | true => simp [Generate.WriteFile, hgo, Generate.Bytes, pure, Except.pure]

theorem WriteFile_verbatim_witness :
    ({ New (ascii "pkg") (ascii "x.txt") with Buffer := ascii "package  x" } :
        Generate).WriteFile
        (fun _ => (Except.ok 3 : Except Nat Nat)) (fun _ => .ok (ascii "package x\n"))
        true (ascii "out")
      = .ok (ascii "package  x") :=
  (WriteFile_verbatim (fun _ => (Except.ok 3 : Except Nat Nat))
    (fun _ => .ok (ascii "package x\n")) (fun _ => (Except.error 1 : Except Nat Unit))
    (fun _ => .error 2) true (ascii "out")
    { New (ascii "pkg") (ascii "x.txt") with Buffer := ascii "package  x" } rfl).1

end GoGenerate
